import Mathlib

/-!
URL shortener: shortening, storage and domain metrics.

A shallow embedding of `internal/shortener/shortener.go` and
`internal/storage/inmemory.go`.

* A Go `string` is a sequence of bytes: `GoString`.  `str` turns a literal into
  its UTF-8 bytes.
* A Go `map[string]V` is `GoMap V`: a list of entries with pairwise different
  keys.  The position of an entry in that list has no meaning in Go; a `range`
  loop may visit the entries in any order, see `GoMap.range`.
* Go's `int` has 32 or 64 bits and `++` wraps at its largest value.
  `IncrementDomainCountInt` and `ShortenInt` carry an `int` of a given width:
  they are the code as it runs.  `IncrementDomainCount` and `Shorten` are the
  same with a counter that never wraps: they return the same values and write
  the same indexes on every store, and the same counts as long as no count
  stands at the largest `int` (`ShortenInt_eq_Shorten`).
* The store is passed explicitly: every operation that writes returns the new
  store.  The read/write lock is not modelled; the operations are taken one at
  a time.
* The standard library functions the code calls (`url.Parse`, `URL.Hostname`,
  `sha256.Sum256`, `base64.URLEncoding.EncodeToString`, `strings.ReplaceAll`,
  `sort.Slice`) are modelled after the Go standard library (net/url as of
  Go 1.22).
-/

namespace UrlShortener

/-! ## Go strings -/

/-- A Go string: a sequence of bytes. -/
abbrev GoString := List UInt8

/-- The byte of an ASCII character. -/
def byte (c : Char) : UInt8 := c.toNat.toUInt8

/-- The UTF-8 bytes of a string literal. -/
def str (s : String) : GoString := s.toList.flatMap String.utf8EncodeChar

/-! ## Go maps -/

/-- A Go `map[string]V`: entries with pairwise different keys. -/
structure GoMap (V : Type) where
  entries : List (GoString × V)
  nodup : (entries.map Prod.fst).Nodup

/-- Look a key up in a list of entries. -/
def lookupEntries {V : Type} (k : GoString) : List (GoString × V) → Option V
  | [] => none
  | (k', v) :: rest => if k' = k then some v else lookupEntries k rest

/-- Write a key in a list of entries: overwrite the entry when the key is
there, add one otherwise. -/
def setEntries {V : Type} (k : GoString) (v : V) : List (GoString × V) → List (GoString × V)
  | [] => [(k, v)]
  | (k', v') :: rest =>
    if k' = k then (k, v) :: rest else (k', v') :: setEntries k v rest

namespace GoMap

/-- `make(map[string]V)`. -/
def empty {V : Type} : GoMap V := ⟨[], List.nodup_nil⟩

/-- `v, ok := m[k]` as an option. -/
def get? {V : Type} (m : GoMap V) (k : GoString) : Option V := lookupEntries k m.entries

/-- `m[k] = v`. -/
def set {V : Type} (m : GoMap V) (k : GoString) (v : V) : GoMap V :=
  ⟨setEntries k v m.entries, by
    have key : ∀ l : List (GoString × V),
        (∀ x, x ∈ (setEntries k v l).map Prod.fst → x = k ∨ x ∈ l.map Prod.fst) ∧
        ((l.map Prod.fst).Nodup → ((setEntries k v l).map Prod.fst).Nodup) := by
      intro l
      induction l with
      | nil => simp [setEntries]
      | cons p rest ih =>
        obtain ⟨k', v'⟩ := p
        by_cases h : k' = k
        · subst h
          simp [setEntries]
        · refine ⟨?_, ?_⟩
          · intro x hx
            simp only [setEntries, if_neg h, List.map_cons, List.mem_cons] at hx ⊢
            rcases hx with hx | hx
            · exact Or.inr (Or.inl hx)
            · rcases ih.1 x hx with h1 | h1
              · exact Or.inl h1
              · exact Or.inr (Or.inr h1)
          · intro hnd
            simp only [setEntries, if_neg h, List.map_cons, List.nodup_cons] at hnd ⊢
            refine ⟨?_, ih.2 hnd.2⟩
            intro hmem
            rcases ih.1 k' hmem with h1 | h1
            · exact h h1
            · exact hnd.1 h1
    exact (key m.entries).2 m.nodup⟩

/-- `len(m)`. -/
def len {V : Type} (m : GoMap V) : Nat := m.entries.length

/-- The entries in the order a `range` loop visits them.  Go leaves that order
open and it may change from one loop to the next: `visit` is the order taken by
this loop, any arrangement of the entries (an argument that is not an
arrangement of the entries is ignored). -/
def range {V : Type} [DecidableEq V] (m : GoMap V) (visit : List (GoString × V)) :
    List (GoString × V) :=
  if visit.Perm m.entries then visit else m.entries

end GoMap

/-! ## `strings` -/

/-- `strings.Index(s, sub)`: the position of the first occurrence. -/
def Index (sub : GoString) : GoString → Option Nat
  | [] => if sub = [] then some 0 else none
  | c :: rest =>
    if sub.isPrefixOf (c :: rest) then some 0 else (Index sub rest).map (· + 1)

/-- `strings.LastIndex(s, sub)`: the position of the last occurrence. -/
def LastIndex (sub : GoString) : GoString → Option Nat
  | [] => if sub = [] then some 0 else none
  | c :: rest =>
    match LastIndex sub rest with
    | some i => some (i + 1)
    | none => if sub.isPrefixOf (c :: rest) then some 0 else none

/-- `strings.Cut(s, sep)` for a separator of one byte: the text before the
first separator, the text after it, and whether there is one. -/
def Cut (sep : UInt8) : GoString → GoString × GoString × Bool
  | [] => ([], [], false)
  | c :: rest =>
    if c = sep then ([], rest, true)
    else
      let r := Cut sep rest
      (c :: r.1, r.2.1, r.2.2)

/-- `strings.ToLower` on ASCII text (the scheme holds ASCII letters, digits,
`+`, `-` and `.` only). -/
def ToLower (s : GoString) : GoString :=
  s.map fun c => if byte 'A' ≤ c ∧ c ≤ byte 'Z' then c + 32 else c

/-- Helper of `ReplaceAll`: `skip` bytes of a replaced occurrence are still to
be dropped. -/
def replaceFrom (old new : GoString) : Nat → GoString → GoString
  | _, [] => []
  | skip + 1, _ :: rest => replaceFrom old new skip rest
  | 0, c :: rest =>
    if old.isPrefixOf (c :: rest) then new ++ replaceFrom old new (old.length - 1) rest
    else c :: replaceFrom old new 0 rest

/-- `strings.ReplaceAll(s, old, new)` for a non-empty `old`: the occurrences
of `old`, taken from the left without overlap, become `new`. -/
def ReplaceAll (s old new : GoString) : GoString := replaceFrom old new 0 s

/-! ## `net/url` -/

/-- The error inside a `*url.Error` of `url.Parse`. -/
inductive ParseErr where
  /-- "net/url: invalid control character in URL" -/
  | controlCharacter
  /-- "missing protocol scheme" -/
  | missingScheme
  /-- "first path segment in URL cannot contain colon" -/
  | colonInFirstSegment
  /-- `EscapeError`: "invalid URL escape" and the quoted text -/
  | escape (s : GoString)
  /-- `InvalidHostError`: "invalid character ... in host name" -/
  | invalidHost (s : GoString)
  /-- "missing ']' in host" -/
  | missingBracket
  /-- "invalid port ... after host" -/
  | invalidPort (s : GoString)
  /-- "net/url: invalid userinfo" -/
  | invalidUserinfo
  deriving DecidableEq, Repr

/-- The `*url.Error` value: operation, URL and cause. -/
structure UrlError where
  Op : String
  URL : GoString
  Err : ParseErr
  deriving DecidableEq, Repr

/-- The fields of `url.URL` that `url.Parse` fills from the text, without
`User`, `RawPath` and `RawFragment`. -/
structure URL where
  Scheme : GoString := []
  Opaque : GoString := []
  Host : GoString := []
  Path : GoString := []
  ForceQuery : Bool := false
  RawQuery : GoString := []
  Fragment : GoString := []
  OmitHost : Bool := false
  deriving DecidableEq, Repr

/-- The part of a URL a text is unescaped for. -/
inductive Encoding where
  | encodePath
  | encodeHost
  | encodeZone
  | encodeUserPassword
  | encodeFragment
  deriving DecidableEq, Repr

/-- A letter or a digit. -/
def isAlnum (c : UInt8) : Bool :=
  (byte 'a' ≤ c && c ≤ byte 'z') || (byte 'A' ≤ c && c ≤ byte 'Z') ||
    (byte '0' ≤ c && c ≤ byte '9')

/-- `ishex`. -/
def ishex (c : UInt8) : Bool :=
  (byte '0' ≤ c && c ≤ byte '9') || (byte 'a' ≤ c && c ≤ byte 'f') ||
    (byte 'A' ≤ c && c ≤ byte 'F')

/-- `unhex`. -/
def unhex (c : UInt8) : UInt8 :=
  if byte '0' ≤ c ∧ c ≤ byte '9' then c - byte '0'
  else if byte 'a' ≤ c ∧ c ≤ byte 'f' then c - byte 'a' + 10
  else if byte 'A' ≤ c ∧ c ≤ byte 'F' then c - byte 'A' + 10
  else 0

/-- `shouldEscape(c, encodeHost)`: letters, digits, the sub-delimiters, `:`,
`[`, `]`, `<`, `>`, the double quote and `-`, `_`, `.`, `~` may stand in a host
as they are. -/
def shouldEscapeHost (c : UInt8) : Bool :=
  !(isAlnum c || c ∈ [byte '!', byte '$', byte '&', 39, byte '(', byte ')', byte '*',
      byte '+', byte ',', byte ';', byte '=', byte ':', byte '[', byte ']', byte '<',
      byte '>', 34, byte '-', byte '_', byte '.', byte '~'])

/-- `unescape(s, mode)`: checks the `%` escapes (and, in a host, the bytes) from
the left and decodes the text. -/
def unescape (mode : Encoding) : GoString → Except ParseErr GoString
  | [] => .ok []
  | c :: rest =>
    if c = byte '%' then
      match rest with
      | h :: l :: rest2 =>
        if ishex h && ishex l then
          if mode = .encodeHost ∧ unhex h < 8 ∧ [c, h, l] ≠ str "%25" then
            .error (.escape [c, h, l])
          else if mode = .encodeZone ∧ [c, h, l] ≠ str "%25" ∧
              (unhex h <<< 4 ||| unhex l) ≠ byte ' ' ∧
              shouldEscapeHost (unhex h <<< 4 ||| unhex l) then
            .error (.escape [c, h, l])
          else
            match unescape mode rest2 with
            | .ok t => .ok ((unhex h <<< 4 ||| unhex l) :: t)
            | .error e => .error e
        else .error (.escape [c, h, l])
      | _ => .error (.escape (c :: rest))
    else if c ≠ byte '+' ∧ (mode = .encodeHost ∨ mode = .encodeZone) ∧ c < 128 ∧
        shouldEscapeHost c then
      .error (.invalidHost [c])
    else
      match unescape mode rest with
      | .ok t => .ok (c :: t)
      | .error e => .error e

/-- Helper of `getScheme`: the scan from position `i` on, `seen` holding the
bytes before it. -/
def getSchemeFrom (rawURL : GoString) : Nat → GoString → GoString →
    Except ParseErr (GoString × GoString)
  | _, _, [] => .ok ([], rawURL)
  | i, seen, c :: rest =>
    if (byte 'a' ≤ c ∧ c ≤ byte 'z') ∨ (byte 'A' ≤ c ∧ c ≤ byte 'Z') then
      getSchemeFrom rawURL (i + 1) (seen ++ [c]) rest
    else if (byte '0' ≤ c ∧ c ≤ byte '9') ∨ c = byte '+' ∨ c = byte '-' ∨ c = byte '.' then
      if i = 0 then .ok ([], rawURL) else getSchemeFrom rawURL (i + 1) (seen ++ [c]) rest
    else if c = byte ':' then
      if i = 0 then .error .missingScheme else .ok (seen, rest)
    else .ok ([], rawURL)

/-- `getScheme(rawURL)`: the scheme before the first `:` and the rest; no scheme
when the text before it is not a scheme name. -/
def getScheme (rawURL : GoString) : Except ParseErr (GoString × GoString) :=
  getSchemeFrom rawURL 0 [] rawURL

/-- `stringContainsCTLByte`. -/
def stringContainsCTLByte (s : GoString) : Bool :=
  s.any fun b => b < byte ' ' || b = 127

/-- `validOptionalPort`: empty, or `:` and digits. -/
def validOptionalPort : GoString → Bool
  | [] => true
  | c :: rest => c = byte ':' && rest.all fun b => byte '0' ≤ b && b ≤ byte '9'

/-- `validUserinfo`. -/
def validUserinfo (s : GoString) : Bool :=
  s.all fun r => isAlnum r || r ∈ [byte '-', byte '.', byte '_', byte ':', byte '~',
    byte '!', byte '$', byte '&', 39, byte '(', byte ')', byte '*', byte '+', byte ',',
    byte ';', byte '=', byte '%', byte '@']

/-- `parseHost`. -/
def parseHost (host : GoString) : Except ParseErr GoString :=
  let plain : Except ParseErr GoString := unescape .encodeHost host
  if (str "[").isPrefixOf host then
    match LastIndex (str "]") host with
    | none => .error .missingBracket
    | some i =>
      let colonPort := host.drop (i + 1)
      if !validOptionalPort colonPort then .error (.invalidPort colonPort)
      else
        match Index (str "%25") (host.take i) with
        | some zone =>
          match unescape .encodeHost (host.take zone) with
          | .error e => .error e
          | .ok host1 =>
            match unescape .encodeZone ((host.take i).drop zone) with
            | .error e => .error e
            | .ok host2 =>
              match unescape .encodeHost (host.drop i) with
              | .error e => .error e
              | .ok host3 => .ok (host1 ++ host2 ++ host3)
        | none => plain
  else
    match LastIndex (str ":") host with
    | some i =>
      let colonPort := host.drop i
      if !validOptionalPort colonPort then .error (.invalidPort colonPort) else plain
    | none => plain

/-- `parseAuthority`, the host only: the user information is checked and
dropped. -/
def parseAuthority (authority : GoString) : Except ParseErr GoString :=
  match LastIndex (str "@") authority with
  | none => parseHost authority
  | some i =>
    match parseHost (authority.drop (i + 1)) with
    | .error e => .error e
    | .ok host =>
      let userinfo := authority.take i
      if !validUserinfo userinfo then .error .invalidUserinfo
      else if !(userinfo.contains (byte ':')) then
        match unescape .encodeUserPassword userinfo with
        | .error e => .error e
        | .ok _ => .ok host
      else
        match unescape .encodeUserPassword (Cut (byte ':') userinfo).1 with
        | .error e => .error e
        | .ok _ =>
          match unescape .encodeUserPassword (Cut (byte ':') userinfo).2.1 with
          | .error e => .error e
          | .ok _ => .ok host

/-- `parse(rawURL, false)`: the URL without its fragment. -/
def parse (rawURL : GoString) : Except ParseErr URL :=
  if stringContainsCTLByte rawURL then .error .controlCharacter
  else if rawURL = str "*" then .ok { Path := str "*" }
  else
    match getScheme rawURL with
    | .error e => .error e
    | .ok (scheme, rest0) =>
      let Scheme := ToLower scheme
      let force : Bool := rest0.getLast? = some (byte '?') && rest0.count (byte '?') = 1
      let rest : GoString := if force then rest0.dropLast else (Cut (byte '?') rest0).1
      let RawQuery : GoString := if force then [] else (Cut (byte '?') rest0).2.1
      if !(str "/").isPrefixOf rest ∧ Scheme ≠ [] then
        .ok { Scheme := Scheme, Opaque := rest, ForceQuery := force, RawQuery := RawQuery }
      else if !(str "/").isPrefixOf rest ∧ (Cut (byte '/') rest).1.contains (byte ':') then
        .error .colonInFirstSegment
      else if (Scheme ≠ [] ∨ !(str "///").isPrefixOf rest) ∧ (str "//").isPrefixOf rest then
        let authority := (Cut (byte '/') (rest.drop 2)).1
        let path := (rest.drop 2).drop authority.length
        match parseAuthority authority with
        | .error e => .error e
        | .ok host =>
          match unescape .encodePath path with
          | .error e => .error e
          | .ok p =>
            .ok { Scheme := Scheme, Host := host, Path := p, ForceQuery := force,
                  RawQuery := RawQuery }
      else
        match unescape .encodePath rest with
        | .error e => .error e
        | .ok p =>
          .ok { Scheme := Scheme, Path := p, ForceQuery := force, RawQuery := RawQuery,
                OmitHost := decide (Scheme ≠ [] ∧ (str "/").isPrefixOf rest) }

/-- `url.Parse(rawURL)`. -/
def Parse (rawURL : GoString) : Except UrlError URL :=
  let u := (Cut (byte '#') rawURL).1
  let frag := (Cut (byte '#') rawURL).2.1
  match parse u with
  | .error e => .error ⟨"parse", u, e⟩
  | .ok url =>
    if frag = [] then .ok url
    else
      match unescape .encodeFragment frag with
      | .error e => .error ⟨"parse", rawURL, e⟩
      | .ok f => .ok { url with Fragment := f }

/-- `splitHostPort`, the host: a valid port is cut off, and so are the square
brackets of an address. -/
def splitHostPort (hostPort : GoString) : GoString :=
  let host : GoString :=
    match LastIndex (str ":") hostPort with
    | some colon => if validOptionalPort (hostPort.drop colon) then hostPort.take colon else hostPort
    | none => hostPort
  if (str "[").isPrefixOf host ∧ host.getLast? = some (byte ']') then
    (host.drop 1).dropLast
  else host

/-- `(*URL).Hostname()`. -/
def URL.Hostname (u : URL) : GoString := splitHostPort u.Host

/-! ## `crypto/sha256` -/

/-- The round constants of SHA-256. -/
def K256 : List Nat := [1116352408, 1899447441, 3049323471, 3921009573, 961987163, 1508970993,
  2453635748, 2870763221, 3624381080, 310598401, 607225278, 1426881987, 1925078388, 2162078206,
  2614888103, 3248222580, 3835390401, 4022224774, 264347078, 604807628, 770255983, 1249150122,
  1555081692, 1996064986, 2554220882, 2821834349, 2952996808, 3210313671, 3336571891, 3584528711,
  113926993, 338241895, 666307205, 773529912, 1294757372, 1396182291, 1695183700, 1986661051,
  2177026350, 2456956037, 2730485921, 2820302411, 3259730800, 3345764771, 3516065817, 3600352804,
  4094571909, 275423344, 430227734, 506948616, 659060556, 883997877, 958139571, 1322822218,
  1537002063, 1747873779, 1955562222, 2024104815, 2227730452, 2361852424, 2428436474, 2756734187,
  3204031479, 3329325298]

/-- The initial hash value of SHA-256. -/
def init256 : List Nat := [1779033703, 3144134277, 1013904242, 2773480762, 1359893119,
  2600822924, 528734635, 1541459225]

/-- Rotation of a 32-bit word to the right. -/
def rotr32 (x k : Nat) : Nat := (x >>> k) ||| ((x <<< (32 - k)) % 2 ^ 32)

/-- Addition of 32-bit words. -/
def add32 (x y : Nat) : Nat := (x + y) % 2 ^ 32

/-- The padded message: the bytes, `0x80`, zeros up to 56 modulo 64, and the
length in bits as 8 bytes, high byte first. -/
def pad256 (msg : List Nat) : List Nat :=
  msg ++ [128] ++ List.replicate ((55 + 64 - msg.length % 64) % 64) 0 ++
    (List.range 8).map (fun i => ((8 * msg.length) >>> (8 * (7 - i))) % 256)

/-- The bytes as 32-bit words, high byte first. -/
def words32 : List Nat → List Nat
  | a :: b :: c :: d :: rest => (a * 2 ^ 24 + b * 2 ^ 16 + c * 2 ^ 8 + d) :: words32 rest
  | _ => []

/-- One more word of the message schedule; the schedule is kept newest word
first. -/
def extend256 (w : List Nat) : List Nat :=
  let w15 := w.getD 14 0
  let w2 := w.getD 1 0
  let s0 := rotr32 w15 7 ^^^ rotr32 w15 18 ^^^ (w15 >>> 3)
  let s1 := rotr32 w2 17 ^^^ rotr32 w2 19 ^^^ (w2 >>> 10)
  add32 (add32 (add32 (w.getD 15 0) s0) (w.getD 6 0)) s1 :: w

/-- The 64 words of the message schedule of a block of 16 words. -/
def schedule256 (block : List Nat) : List Nat :=
  (Nat.iterate extend256 48 block.reverse).reverse

/-- One round of the compression function, on the eight working words. -/
def round256 (st : List Nat) (kw : Nat × Nat) : List Nat :=
  match st with
  | [a, b, c, d, e, f, g, h] =>
    let s1 := rotr32 e 6 ^^^ rotr32 e 11 ^^^ rotr32 e 25
    let ch := (e &&& f) ^^^ ((2 ^ 32 - 1 - e) &&& g)
    let t1 := add32 (add32 (add32 (add32 h s1) ch) kw.1) kw.2
    let s0 := rotr32 a 2 ^^^ rotr32 a 13 ^^^ rotr32 a 22
    let maj := (a &&& b) ^^^ (a &&& c) ^^^ (b &&& c)
    let t2 := add32 s0 maj
    [add32 t1 t2, a, b, c, add32 d t1, e, f, g]
  | _ => st

/-- The hash value after one more block. -/
def block256 (st : List Nat) (block : List Nat) : List Nat :=
  List.zipWith add32 st ((K256.zip (schedule256 block)).foldl round256 st)

/-- The hash value after `n` more blocks of 16 words. -/
def blocks256 : Nat → List Nat → List Nat → List Nat
  | 0, st, _ => st
  | n + 1, st, ws => blocks256 n (block256 st (ws.take 16)) (ws.drop 16)

/-- `sha256.Sum256(data)`: the 32 bytes of the digest. -/
def Sum256 (data : GoString) : List UInt8 :=
  let ws := words32 (pad256 (data.map UInt8.toNat))
  (blocks256 (ws.length / 16) init256 ws).flatMap fun w =>
    [(w >>> 24).toUInt8, ((w >>> 16) % 256).toUInt8, ((w >>> 8) % 256).toUInt8,
      (w % 256).toUInt8]

/-! ## `encoding/base64` -/

/-- The alphabet of `base64.URLEncoding`. -/
def encodeURL : GoString :=
  str "ABCDEFGHIJKLMNOPQRSTUVWXYZabcdefghijklmnopqrstuvwxyz0123456789-_"

/-- The character of a 6-bit value. -/
def encodeChar (v : Nat) : UInt8 := encodeURL.getD (v % 64) 0

/-- `base64.URLEncoding.EncodeToString(src)`: four characters for three bytes,
the last group padded with `=`. -/
def EncodeToString : List UInt8 → GoString
  | a :: b :: c :: rest =>
    let v := a.toNat * 2 ^ 16 + b.toNat * 2 ^ 8 + c.toNat
    encodeChar (v >>> 18) :: encodeChar (v >>> 12) :: encodeChar (v >>> 6) :: encodeChar v ::
      EncodeToString rest
  | [a, b] =>
    let v := a.toNat * 2 ^ 16 + b.toNat * 2 ^ 8
    [encodeChar (v >>> 18), encodeChar (v >>> 12), encodeChar (v >>> 6), byte '=']
  | [a] =>
    let v := a.toNat * 2 ^ 16
    [encodeChar (v >>> 18), encodeChar (v >>> 12), byte '=', byte '=']
  | [] => []

/-! ## `sort` -/

/-- The inner loop of insertion sort: the new element moves left past every
element it is less than.  `sorted` holds the sorted part, last element first. -/
def insertBack {α : Type} (less : α → α → Bool) (x : α) : List α → List α
  | [] => [x]
  | y :: rest => if less x y then y :: insertBack less x rest else x :: y :: rest

/-- `sort.Slice(data, less)`, as the insertion sort that the library runs on a
slice of at most 12 elements.  On a longer slice the library runs a quicksort
variant: it also leaves an arrangement of the slice sorted by `less`, and may
leave elements that `less` does not tell apart in another order. -/
def sortSlice {α : Type} (less : α → α → Bool) (data : List α) : List α :=
  (data.foldl (fun sorted x => insertBack less x sorted) []).reverse

/-! ## `internal/storage` -/

/-- A domain and its count. -/
structure DomainCount where
  Domain : GoString
  Count : Int
  deriving DecidableEq, Repr

/-- The in-memory store: the two URL indexes and the domain counters. -/
structure InMemoryStorage where
  shortToLong : GoMap GoString
  longToShort : GoMap GoString
  domainCounts : GoMap Int

/-- `NewInMemoryStorage()`: the empty store. -/
def NewInMemoryStorage : InMemoryStorage := ⟨GoMap.empty, GoMap.empty, GoMap.empty⟩

namespace InMemoryStorage

/-- `Save(shortCode, originalURL)`. -/
def Save (s : InMemoryStorage) (shortCode originalURL : GoString) : InMemoryStorage :=
  { s with
    shortToLong := s.shortToLong.set shortCode originalURL
    longToShort := s.longToShort.set originalURL shortCode }

/-- `Find(shortCode)`. -/
def Find (s : InMemoryStorage) (shortCode : GoString) : GoString × Bool :=
  match s.shortToLong.get? shortCode with
  | some originalURL => (originalURL, true)
  | none => ([], false)

/-- `FindShortCode(originalURL)`. -/
def FindShortCode (s : InMemoryStorage) (originalURL : GoString) : GoString × Bool :=
  match s.longToShort.get? originalURL with
  | some shortCode => (shortCode, true)
  | none => ([], false)

/-- `IncrementDomainCount(domain)`: `s.domainCounts[domain]++`, a missing entry
counting as 0, with a counter that never wraps (`IncrementDomainCountInt` is
the call with Go's `int`). -/
def IncrementDomainCount (s : InMemoryStorage) (domain : GoString) : InMemoryStorage :=
  { s with
    domainCounts := s.domainCounts.set domain ((s.domainCounts.get? domain).getD 0 + 1) }

/-- `GetTopDomains(n)`, the `range` loop visiting the counters in the order
`visit`.  `none` is the run-time panic of the slice expression `domains[:n]`. -/
def GetTopDomains (s : InMemoryStorage) (visit : List (GoString × Int)) (n : Int) :
    Option (List DomainCount) :=
  let domains := (s.domainCounts.range visit).map fun e => DomainCount.mk e.1 e.2
  let domains := sortSlice (fun a b => decide (a.Count > b.Count)) domains
  if (domains.length : Int) > n then
    if n < 0 then none else some (domains.take n.toNat)
  else some domains

end InMemoryStorage

/-- `ExtractDomain(urlStr)`: the host name and the error. -/
def ExtractDomain (urlStr : GoString) : GoString × Option UrlError :=
  match Parse urlStr with
  | .error err => ([], some err)
  | .ok parsedURL => (parsedURL.Hostname, none)

/-! ## `internal/shortener` -/

/-- An `error` made by `fmt.Errorf`: the format text and the error that `%w`
stands for. -/
structure FmtError where
  format : String
  wrapped : Option UrlError
  deriving DecidableEq, Repr

/-- `validateURL(rawURL)`; `none` is the nil error. -/
def validateURL (rawURL : GoString) : Option FmtError :=
  match Parse rawURL with
  | .error err => some ⟨"invalid URL format: %w", some err⟩
  | .ok parsedURL =>
    if parsedURL.Scheme ≠ str "http" ∧ parsedURL.Scheme ≠ str "https" then
      some ⟨"URL must have http or https scheme", none⟩
    else if parsedURL.Host = [] then
      some ⟨"URL must have a host", none⟩
    else none

/-- `generateShortCode(url)`. -/
def generateShortCode (url : GoString) : GoString :=
  let hash := Sum256 url
  let encoded := EncodeToString hash
  let shortCode := encoded.take 8
  let shortCode := ReplaceAll shortCode (str "_") (str "a")
  let shortCode := ReplaceAll shortCode (str "-") (str "b")
  shortCode

/-- `Shorten(originalURL)` on the store `s`: the returned code and error, and
the store after the call, with domain counters that never wrap (`ShortenInt` is
the call with Go's `int`). -/
def Shorten (s : InMemoryStorage) (originalURL : GoString) :
    (GoString × Option FmtError) × InMemoryStorage :=
  match validateURL originalURL with
  | some err => (([], some err), s)
  | none =>
    match s.FindShortCode originalURL with
    | (shortCode, true) => ((shortCode, none), s)
    | (_, false) =>
      let shortCode := generateShortCode originalURL
      let s1 :=
        match ExtractDomain originalURL with
        | (domain, none) => if domain ≠ [] then s.IncrementDomainCount domain else s
        | (_, some _) => s
      ((shortCode, none), s1.Save shortCode originalURL)

/-- `Expand(shortCode)`. -/
def Expand (s : InMemoryStorage) (shortCode : GoString) : GoString × Bool :=
  s.Find shortCode

/-- The store after a series of `Shorten` calls, one after the other. -/
def shortenAll (s : InMemoryStorage) : List GoString → InMemoryStorage
  | [] => s
  | u :: rest => shortenAll (Shorten s u).2 rest

/-- The store states that a series of `Shorten` calls reaches from the empty
store. -/
def Reachable (s : InMemoryStorage) : Prop :=
  ∃ urls : List GoString, s = shortenAll NewInMemoryStorage urls

/-- The sum of all domain counts. -/
def totalCount (s : InMemoryStorage) : Int := (s.domainCounts.entries.map Prod.snd).sum

/-! ## Invariants and measures of the store -/

/-- The stored-code invariant: every entry `u -> c` of the URL->code index has
`c = generateShortCode u`, a valid `u`, and `c` as a key of the code->URL index;
every entry `c -> u` of the code->URL index has `generateShortCode u = c` and
`u -> c` in the URL->code index. -/
def CodesStored (s : InMemoryStorage) : Prop :=
  (∀ u c, s.longToShort.get? u = some c →
    c = generateShortCode u ∧ validateURL u = none ∧ ∃ u', s.shortToLong.get? c = some u') ∧
  (∀ c u, s.shortToLong.get? c = some u →
    generateShortCode u = c ∧ s.longToShort.get? u = some c)

/-- Whether `Shorten` counts a domain for the URL: the extraction gives no
error and a domain that is not empty. -/
def countsDomain (originalURL : GoString) : Bool :=
  decide ((ExtractDomain originalURL).2 = none ∧ (ExtractDomain originalURL).1 ≠ [])

/-- The number of stored URLs for which a domain is counted. -/
def countedURLs (s : InMemoryStorage) : Nat :=
  (s.longToShort.entries.filter fun e => countsDomain e.1).length

/-- The slice `domains` of `GetTopDomains` after the sort, before it is cut to
`n` entries. -/
def sortedDomains (s : InMemoryStorage) (visit : List (GoString × Int)) : List DomainCount :=
  sortSlice (fun a b => decide (a.Count > b.Count))
    ((s.domainCounts.range visit).map fun e => DomainCount.mk e.1 e.2)

/-! ## Go's `int` -/

/-- The largest `int` where `int` has `bits` bits (32 or 64 in Go). -/
def MaxInt (bits : Nat) : Int := 2 ^ (bits - 1) - 1

/-- The smallest `int` where `int` has `bits` bits. -/
def MinInt (bits : Nat) : Int := -2 ^ (bits - 1)

/-- The `int` that Go's arithmetic keeps of an integer: the value in the range
from `MinInt bits` to `MaxInt bits` that differs from it by a multiple of
`2 ^ bits`. -/
def wrapInt (bits : Nat) (x : Int) : Int := (x - MinInt bits) % 2 ^ bits + MinInt bits

/-- `IncrementDomainCount(domain)` with an `int` of `bits` bits:
`s.domainCounts[domain]++`, a missing entry counting as 0, wraps at the largest
`int`. -/
def InMemoryStorage.IncrementDomainCountInt (bits : Nat) (s : InMemoryStorage)
    (domain : GoString) : InMemoryStorage :=
  { s with
    domainCounts :=
      s.domainCounts.set domain (wrapInt bits ((s.domainCounts.get? domain).getD 0 + 1)) }

/-- `Shorten(originalURL)` on the store `s` with an `int` of `bits` bits: the
returned code and error, and the store after the call. -/
def ShortenInt (bits : Nat) (s : InMemoryStorage) (originalURL : GoString) :
    (GoString × Option FmtError) × InMemoryStorage :=
  match validateURL originalURL with
  | some err => (([], some err), s)
  | none =>
    match s.FindShortCode originalURL with
    | (shortCode, true) => ((shortCode, none), s)
    | (_, false) =>
      let shortCode := generateShortCode originalURL
      let s1 :=
        match ExtractDomain originalURL with
        | (domain, none) =>
          if domain ≠ [] then s.IncrementDomainCountInt bits domain else s
        | (_, some _) => s
      ((shortCode, none), s1.Save shortCode originalURL)

/-! ## Series of calls on the store -/

/-- A call that may write the store. -/
inductive Op where
  /-- `Save(shortCode, originalURL)` -/
  | save (shortCode originalURL : GoString)
  /-- `IncrementDomainCount(domain)` -/
  | increment (domain : GoString)
  /-- `Shorten(originalURL)` -/
  | shorten (originalURL : GoString)
  deriving DecidableEq, Repr

/-- The store after one call. -/
def applyOp (s : InMemoryStorage) : Op → InMemoryStorage
  | .save shortCode originalURL => s.Save shortCode originalURL
  | .increment domain => s.IncrementDomainCount domain
  | .shorten originalURL => (Shorten s originalURL).2

/-- The store after a series of calls, one after the other. -/
def runOps (s : InMemoryStorage) : List Op → InMemoryStorage
  | [] => s
  | op :: rest => runOps (applyOp s op) rest

/-- Whether the call is a direct `Save`. -/
def Op.isSave : Op → Bool
  | .save _ _ => true
  | _ => false

/-- The short code that the call may write into the indexes. -/
def Op.code : Op → Option GoString
  | .save shortCode _ => some shortCode
  | .increment _ => none
  | .shorten originalURL => some (generateShortCode originalURL)

/-- The URL that the call may write into the indexes. -/
def Op.url : Op → Option GoString
  | .save _ originalURL => some originalURL
  | .increment _ => none
  | .shorten originalURL => some originalURL

/-! ## Parallel callers

Every method of the store holds the lock for its whole body, so a run of
parallel callers is a sequence of whole store calls, taken from the callers in
any order.  A `Shorten` call makes up to three of them: the lookup
`FindShortCode`, then `IncrementDomainCount` and `Save` when the lookup has
missed.  What a caller has still to do is a list of `Op`: `Op.shorten u` is a
`Shorten u` call that has not made its lookup yet, `Op.increment` and `Op.save`
are the store calls of a `Shorten` call whose lookup has missed. -/

/-- A byte of a host name written without escapes: a letter, a digit, or one of
the marks and sub-delimiters that RFC 3986 allows in a registered name. -/
def isHostNameByte (c : UInt8) : Bool :=
  isAlnum c || c ∈ [byte '-', byte '.', byte '_', byte '~', byte '!', byte '$', byte '&',
    39, byte '(', byte ')', byte '*', byte '+', byte ',', byte ';', byte '=']

/-- A decimal digit. -/
def isDigit (c : UInt8) : Bool := byte '0' ≤ c && c ≤ byte '9'

/-- A byte of a path written without escapes, query or fragment: no control
byte, `%`, `?` or `#`. -/
def isPathByte (c : UInt8) : Bool :=
  !(c < byte ' ' || c = 127 || c = byte '%' || c = byte '?' || c = byte '#')

/-! ## Maps: reading after writing -/

theorem lookupEntries_setEntries_self {V : Type} (k : GoString) (v : V)
    (l : List (GoString × V)) : lookupEntries k (setEntries k v l) = some v := by
  induction l with
  | nil => simp [setEntries, lookupEntries]
  | cons p rest ih =>
    obtain ⟨k', v'⟩ := p
    by_cases h : k' = k
    · simp [setEntries, lookupEntries, h]
    · simp [setEntries, lookupEntries, h, ih]

theorem lookupEntries_setEntries_ne {V : Type} (k k' : GoString) (v : V)
    (l : List (GoString × V)) (h : k' ≠ k) :
    lookupEntries k' (setEntries k v l) = lookupEntries k' l := by
  induction l with
  | nil =>
    have h2 : ¬ k = k' := fun e => h e.symm
    simp [setEntries, lookupEntries, h2]
  | cons p rest ih =>
    obtain ⟨k0, v0⟩ := p
    by_cases h0 : k0 = k
    · subst h0
      have h2 : ¬ k0 = k' := fun e => h e.symm
      simp [setEntries, lookupEntries, h2]
    · by_cases h1 : k0 = k'
      · subst h1
        simp [setEntries, lookupEntries, h0]
      · simp [setEntries, lookupEntries, h0, h1, ih]

theorem GoMap.get?_set_self {V : Type} (m : GoMap V) (k : GoString) (v : V) :
    (m.set k v).get? k = some v :=
  lookupEntries_setEntries_self k v m.entries

theorem GoMap.get?_set_ne {V : Type} (m : GoMap V) (k k' : GoString) (v : V) (h : k' ≠ k) :
    (m.set k v).get? k' = m.get? k' :=
  lookupEntries_setEntries_ne k k' v m.entries h

theorem GoMap.get?_empty {V : Type} (k : GoString) : (GoMap.empty : GoMap V).get? k = none := rfl

theorem lookupEntries_eq_some_iff {V : Type} (k : GoString) (v : V)
    (l : List (GoString × V)) (hnd : (l.map Prod.fst).Nodup) :
    lookupEntries k l = some v ↔ (k, v) ∈ l := by
  induction l with
  | nil => simp [lookupEntries]
  | cons p rest ih =>
    obtain ⟨k', v'⟩ := p
    simp only [List.map_cons, List.nodup_cons] at hnd
    by_cases hk : k' = k
    · subst hk
      have hnot : ∀ w, (k', w) ∉ rest := fun w hw =>
        hnd.1 (List.mem_map.2 ⟨(k', w), hw, rfl⟩)
      simp only [lookupEntries, if_true, Option.some.injEq, List.mem_cons, Prod.mk.injEq,
        true_and]
      constructor
      · intro e; exact Or.inl e.symm
      · rintro (e | e)
        · exact e.symm
        · exact absurd e (hnot v)
    · simp only [lookupEntries, if_neg hk, List.mem_cons, Prod.mk.injEq]
      rw [ih hnd.2]
      constructor
      · intro e; exact Or.inr e
      · rintro (⟨e, _⟩ | e)
        · exact absurd e.symm hk
        · exact e

theorem GoMap.get?_eq_some_iff {V : Type} (m : GoMap V) (k : GoString) (v : V) :
    m.get? k = some v ↔ (k, v) ∈ m.entries :=
  lookupEntries_eq_some_iff k v m.entries m.nodup

/-! ## The three paths of `Shorten` -/

theorem Shorten_invalid (s : InMemoryStorage) (u : GoString) (e : FmtError)
    (hv : validateURL u = some e) : Shorten s u = (([], some e), s) := by
  simp [Shorten, hv]

theorem Shorten_known (s : InMemoryStorage) (u c : GoString)
    (hv : validateURL u = none) (hc : s.longToShort.get? u = some c) :
    Shorten s u = ((c, none), s) := by
  simp [Shorten, hv, InMemoryStorage.FindShortCode, hc]

theorem Shorten_new_counted (s : InMemoryStorage) (u : GoString)
    (hv : validateURL u = none) (hc : s.longToShort.get? u = none)
    (hd : countsDomain u = true) :
    Shorten s u = ((generateShortCode u, none),
      (s.IncrementDomainCount (ExtractDomain u).1).Save (generateShortCode u) u) := by
  rcases hE : ExtractDomain u with ⟨d, _ | e⟩
  · have hne : d ≠ [] := by simpa [countsDomain, hE] using hd
    simp [Shorten, hv, InMemoryStorage.FindShortCode, hc, hE, hne]
  · simp [countsDomain, hE] at hd

theorem Shorten_new_uncounted (s : InMemoryStorage) (u : GoString)
    (hv : validateURL u = none) (hc : s.longToShort.get? u = none)
    (hd : countsDomain u = false) :
    Shorten s u = ((generateShortCode u, none), s.Save (generateShortCode u) u) := by
  rcases hE : ExtractDomain u with ⟨d, _ | e⟩
  · have hne : d = [] := by simpa [countsDomain, hE] using hd
    simp [Shorten, hv, InMemoryStorage.FindShortCode, hc, hE, hne]
  · simp [Shorten, hv, InMemoryStorage.FindShortCode, hc, hE]

/-- A first-time `Shorten` writes both indexes and nothing else of them. -/
theorem Shorten_new_indexes (s : InMemoryStorage) (u : GoString)
    (hv : validateURL u = none) (hc : s.longToShort.get? u = none) :
    (Shorten s u).1 = (generateShortCode u, none) ∧
      (Shorten s u).2.shortToLong = s.shortToLong.set (generateShortCode u) u ∧
      (Shorten s u).2.longToShort = s.longToShort.set u (generateShortCode u) := by
  cases hd : countsDomain u with
  | true =>
    rw [Shorten_new_counted s u hv hc hd]
    exact ⟨rfl, rfl, rfl⟩
  | false =>
    rw [Shorten_new_uncounted s u hv hc hd]
    exact ⟨rfl, rfl, rfl⟩

/-- After a `Shorten` call without error the URL is a key of the URL->code
index, and the call returned the code stored there. -/
theorem Shorten_stores (s : InMemoryStorage) (u : GoString) (hv : validateURL u = none) :
    (Shorten s u).1.2 = none ∧
      (Shorten s u).2.longToShort.get? u = some (Shorten s u).1.1 := by
  cases hc : s.longToShort.get? u with
  | some c => simp [Shorten_known s u c hv hc, hc]
  | none =>
    obtain ⟨h1, _, h3⟩ := Shorten_new_indexes s u hv hc
    rw [h1, h3]
    exact ⟨rfl, GoMap.get?_set_self _ _ _⟩

/-! ## The stored-code invariant -/

theorem CodesStored_new : CodesStored NewInMemoryStorage := by
  constructor
  · intro u c h
    simp [NewInMemoryStorage, GoMap.get?_empty] at h
  · intro c u h
    simp [NewInMemoryStorage, GoMap.get?_empty] at h

theorem CodesStored_Shorten (s : InMemoryStorage) (u : GoString) (h : CodesStored s) :
    CodesStored (Shorten s u).2 := by
  cases hv : validateURL u with
  | some e => rw [Shorten_invalid s u e hv]; exact h
  | none =>
    cases hc : s.longToShort.get? u with
    | some c => rw [Shorten_known s u c hv hc]; exact h
    | none =>
      obtain ⟨_, h2, h3⟩ := Shorten_new_indexes s u hv hc
      obtain ⟨inv1, inv2⟩ := h
      constructor
      · intro x c hx
        rw [h3] at hx
        rw [h2]
        by_cases hxu : x = u
        · subst hxu
          rw [GoMap.get?_set_self] at hx
          cases hx
          exact ⟨rfl, hv, x, GoMap.get?_set_self _ _ _⟩
        · rw [GoMap.get?_set_ne _ _ _ _ hxu] at hx
          obtain ⟨e1, e2, u', e3⟩ := inv1 x c hx
          refine ⟨e1, e2, ?_⟩
          by_cases hcc : c = generateShortCode u
          · exact ⟨u, by rw [hcc]; exact GoMap.get?_set_self _ _ _⟩
          · exact ⟨u', by rw [GoMap.get?_set_ne _ _ _ _ hcc]; exact e3⟩
      · intro c x hx
        rw [h2] at hx
        rw [h3]
        by_cases hcc : c = generateShortCode u
        · subst hcc
          rw [GoMap.get?_set_self] at hx
          cases hx
          exact ⟨rfl, GoMap.get?_set_self _ _ _⟩
        · rw [GoMap.get?_set_ne _ _ _ _ hcc] at hx
          obtain ⟨e1, e2⟩ := inv2 c x hx
          refine ⟨e1, ?_⟩
          have hxu : x ≠ u := by
            intro e
            rw [e] at e2
            rw [hc] at e2
            cases e2
          rw [GoMap.get?_set_ne _ _ _ _ hxu]
          exact e2

theorem CodesStored_shortenAll (urls : List GoString) (s : InMemoryStorage)
    (h : CodesStored s) : CodesStored (shortenAll s urls) := by
  induction urls generalizing s with
  | nil => exact h
  | cons u rest ih => exact ih _ (CodesStored_Shorten s u h)

theorem Reachable.codesStored {s : InMemoryStorage} (h : Reachable s) : CodesStored s := by
  obtain ⟨urls, rfl⟩ := h
  exact CodesStored_shortenAll urls _ CodesStored_new

/-! ## Round trip, idempotence, determinism -/

/-- C1, as amended: in every store state reached from the empty store by
`Shorten` calls, for every valid URL `u` such that no other stored URL has the
short code of `u`, `Shorten u` returns a code without error and `Expand` of
that code, called next, returns `(u, true)`. -/
theorem round_trip_without_collision (s : InMemoryStorage) (u : GoString)
    (hr : Reachable s) (hv : validateURL u = none)
    (hcol : ∀ u' c', s.longToShort.get? u' = some c' →
      generateShortCode u' = generateShortCode u → u' = u) :
    (Shorten s u).1.2 = none ∧
      Expand (Shorten s u).2 (Shorten s u).1.1 = (u, true) := by
  cases hc : s.longToShort.get? u with
  | some c =>
    rw [Shorten_known s u c hv hc]
    refine ⟨rfl, ?_⟩
    obtain ⟨inv1, inv2⟩ := hr.codesStored
    obtain ⟨e1, _, u', e3⟩ := inv1 u c hc
    obtain ⟨f1, f2⟩ := inv2 c u' e3
    have huu : u' = u := hcol u' c f2 (by rw [f1, e1])
    simp [Expand, InMemoryStorage.Find, e3, huu]
  | none =>
    obtain ⟨h1, h2, _⟩ := Shorten_new_indexes s u hv hc
    refine ⟨by rw [h1], ?_⟩
    simp [Expand, InMemoryStorage.Find, h1, h2, GoMap.get?_set_self]

set_option maxRecDepth 100000 in
/-- C1, witness: `https://example.com/test` shortened again on the store that
holds it already. -/
theorem round_trip_without_collision_witness :
    (Shorten (shortenAll NewInMemoryStorage [str "https://example.com/test"])
        (str "https://example.com/test")).1.2 = none ∧
      Expand (Shorten (shortenAll NewInMemoryStorage [str "https://example.com/test"])
          (str "https://example.com/test")).2
          (Shorten (shortenAll NewInMemoryStorage [str "https://example.com/test"])
          (str "https://example.com/test")).1.1
        = (str "https://example.com/test", true) :=
  round_trip_without_collision (shortenAll NewInMemoryStorage [str "https://example.com/test"])
    (str "https://example.com/test") ⟨_, rfl⟩ (by decide!)
    (by
      intro u' c' h _
      have hent : (shortenAll NewInMemoryStorage
          [str "https://example.com/test"]).longToShort.entries
          = [(str "https://example.com/test", str "m4bHI5oT")] := by decide!
      have hm := (GoMap.get?_eq_some_iff _ _ _).1 h
      rw [hent] at hm
      simp only [List.mem_singleton, Prod.mk.injEq] at hm
      exact hm.1)

set_option maxRecDepth 100000 in
/-- C1, counterexample: `http://a.io/8991006` and `http://a.io/35086258` are
valid and have the same short code `om6DuaQG`.  After `Shorten` of the first
and then of the second, `Shorten` of the first returns `om6DuaQG` without
error and `Expand` of that code returns the second URL, not the first. -/
theorem round_trip_counterexample :
    Reachable (shortenAll NewInMemoryStorage
      [str "http://a.io/8991006", str "http://a.io/35086258"]) ∧
    validateURL (str "http://a.io/8991006") = none ∧
    (Shorten (shortenAll NewInMemoryStorage
        [str "http://a.io/8991006", str "http://a.io/35086258"])
      (str "http://a.io/8991006")).1 = (str "om6DuaQG", none) ∧
    Expand (Shorten (shortenAll NewInMemoryStorage
        [str "http://a.io/8991006", str "http://a.io/35086258"])
      (str "http://a.io/8991006")).2 (str "om6DuaQG") = (str "http://a.io/35086258", true) ∧
    Expand (Shorten (shortenAll NewInMemoryStorage
        [str "http://a.io/8991006", str "http://a.io/35086258"])
      (str "http://a.io/8991006")).2
      (Shorten (shortenAll NewInMemoryStorage
        [str "http://a.io/8991006", str "http://a.io/35086258"])
      (str "http://a.io/8991006")).1.1 ≠ (str "http://a.io/8991006", true) :=
  ⟨⟨_, rfl⟩, by decide!, by decide!, by decide!, by decide!⟩

/-- C2: for every store state and every valid URL `u`, two `Shorten u` calls in
a row both return the same code without error, and the second call leaves the
store as the first left it: both indexes have as many entries as before. -/
theorem shorten_twice_same_code (s : InMemoryStorage) (u : GoString)
    (hv : validateURL u = none) :
    (Shorten s u).1.2 = none ∧
      (Shorten (Shorten s u).2 u).1 = (Shorten s u).1 ∧
      (Shorten (Shorten s u).2 u).2 = (Shorten s u).2 ∧
      (Shorten (Shorten s u).2 u).2.shortToLong.len = (Shorten s u).2.shortToLong.len ∧
      (Shorten (Shorten s u).2 u).2.longToShort.len = (Shorten s u).2.longToShort.len := by
  obtain ⟨h1, h2⟩ := Shorten_stores s u hv
  have h3 := Shorten_known (Shorten s u).2 u _ hv h2
  rw [h3]
  refine ⟨h1, ?_, rfl, rfl, rfl⟩
  exact Prod.ext rfl h1.symm

set_option maxRecDepth 100000 in
/-- C2, witness: `https://example.com/test` shortened twice on the empty
store. -/
theorem shorten_twice_same_code_witness :
    (Shorten NewInMemoryStorage (str "https://example.com/test")).1 = (str "m4bHI5oT", none) ∧
      (Shorten (Shorten NewInMemoryStorage (str "https://example.com/test")).2
        (str "https://example.com/test")).1
        = (Shorten NewInMemoryStorage (str "https://example.com/test")).1 :=
  ⟨by decide!,
    (shorten_twice_same_code NewInMemoryStorage (str "https://example.com/test")
      (by decide!)).2.1⟩

/-- C3: for every valid URL `u`, `Shorten u` on the empty store returns
`generateShortCode u`, which depends on the bytes of `u` only, without error. -/
theorem shorten_on_fresh_store (u : GoString) (hv : validateURL u = none) :
    (Shorten NewInMemoryStorage u).1 = (generateShortCode u, none) :=
  (Shorten_new_indexes NewInMemoryStorage u hv (GoMap.get?_empty u)).1

set_option maxRecDepth 100000 in
/-- C3, witness: `https://example.com/test` on the empty store gives
`m4bHI5oT`. -/
theorem shorten_on_fresh_store_witness :
    generateShortCode (str "https://example.com/test") = str "m4bHI5oT" ∧
    (Shorten NewInMemoryStorage (str "https://example.com/test")).1
      = (generateShortCode (str "https://example.com/test"), none) :=
  ⟨by decide!, shorten_on_fresh_store (str "https://example.com/test") (by decide!)⟩

/-! ## Validation -/

/-- The error of `Shorten` is the error of `validateURL`. -/
theorem Shorten_error (st : InMemoryStorage) (s : GoString) :
    (Shorten st s).1.2 = validateURL s := by
  cases hv : validateURL s with
  | some e => rw [Shorten_invalid st s e hv]
  | none => exact (Shorten_stores st s hv).1

set_option maxRecDepth 100000 in
/-- C4: `validateURL s` returns the error "invalid URL format: %w" wrapping the
parse error when `url.Parse s` fails; else "URL must have http or https scheme"
when the parsed scheme is neither `http` nor `https`; else "URL must have a
host" when the parsed host is empty; else no error.  So it returns an error
exactly in these three cases, and `Shorten` returns the same error.
`ftp://example.com`, `example.com` and the empty string are rejected,
`http://example.com` and `https://example.com` are accepted. -/
theorem validateURL_cases (s : GoString) :
    (∀ err, Parse s = .error err →
      validateURL s = some ⟨"invalid URL format: %w", some err⟩) ∧
    (∀ url, Parse s = .ok url → url.Scheme ≠ str "http" → url.Scheme ≠ str "https" →
      validateURL s = some ⟨"URL must have http or https scheme", none⟩) ∧
    (∀ url, Parse s = .ok url → (url.Scheme = str "http" ∨ url.Scheme = str "https") →
      url.Host = [] → validateURL s = some ⟨"URL must have a host", none⟩) ∧
    (∀ url, Parse s = .ok url → (url.Scheme = str "http" ∨ url.Scheme = str "https") →
      url.Host ≠ [] → validateURL s = none) ∧
    (validateURL s ≠ none ↔
      ((∃ err, Parse s = .error err) ∨
        ∃ url, Parse s = .ok url ∧
          ((url.Scheme ≠ str "http" ∧ url.Scheme ≠ str "https") ∨ url.Host = []))) ∧
    (∀ st, (Shorten st s).1.2 = validateURL s) ∧
    validateURL (str "ftp://example.com")
      = some ⟨"URL must have http or https scheme", none⟩ ∧
    validateURL (str "example.com") = some ⟨"URL must have http or https scheme", none⟩ ∧
    validateURL (str "") = some ⟨"URL must have http or https scheme", none⟩ ∧
    validateURL (str "http://example.com") = none ∧
    validateURL (str "https://example.com") = none := by
  refine ⟨?_, ?_, ?_, ?_, ?_, fun st => Shorten_error st s, by decide!, by decide!,
    by decide!, by decide!, by decide!⟩
  · intro err h
    simp [validateURL, h]
  · intro url h h1 h2
    simp [validateURL, h, h1, h2]
  · intro url h h1 h2
    have h3 : ¬ (url.Scheme ≠ str "http" ∧ url.Scheme ≠ str "https") := by
      rintro ⟨a, b⟩
      rcases h1 with h1 | h1
      · exact a h1
      · exact b h1
    simp only [validateURL, h, if_neg h3, h2, if_true]
  · intro url h h1 h2
    have h3 : ¬ (url.Scheme ≠ str "http" ∧ url.Scheme ≠ str "https") := by
      rintro ⟨a, b⟩
      rcases h1 with h1 | h1
      · exact a h1
      · exact b h1
    simp only [validateURL, h, if_neg h3, if_neg h2]
  · cases h : Parse s with
    | error err => simp [validateURL, h]
    | ok url =>
      by_cases h3 : url.Scheme ≠ str "http" ∧ url.Scheme ≠ str "https"
      · simp only [validateURL, h, if_pos h3]
        simp [h3]
      · by_cases h2 : url.Host = []
        · simp only [validateURL, h, if_neg h3, if_pos h2]
          simp [h2]
        · simp only [validateURL, h, if_neg h3, if_neg h2]
          simp [h2, h3]

/-! ## The scheme check -/

theorem parse_Scheme (u scheme rest : GoString) (url : URL)
    (hs : getScheme u = .ok (scheme, rest)) (hp : parse u = .ok url) :
    url.Scheme = ToLower scheme := by
  unfold parse at hp
  split_ifs at hp with h1 h2
  · subst h2
    have h3 : getScheme (str "*") = .ok ([], str "*") := by rfl
    rw [h3] at hs
    cases hs
    cases hp
    rfl
  · rw [hs] at hp
    simp only at hp
    split_ifs at hp <;>
      first
      | (cases hp; rfl)
      | (split at hp <;>
          first
          | (cases hp; rfl)
          | cases hp
          | (split at hp <;> first | (cases hp; rfl) | cases hp))

theorem Parse_Scheme (s scheme rest : GoString) (url : URL)
    (hs : getScheme (Cut (byte '#') s).1 = .ok (scheme, rest)) (hp : Parse s = .ok url) :
    url.Scheme = ToLower scheme := by
  unfold Parse at hp
  simp only at hp
  split at hp
  · cases hp
  · rename_i url0 h0
    have h1 := parse_Scheme _ scheme rest url0 hs h0
    split_ifs at hp
    · cases hp; exact h1
    · split at hp
      · cases hp
      · cases hp; exact h1

/-- C5, as amended: the scheme check matches the scheme as `url.Parse` returns
it, which is the written scheme in lower case, against `http` and `https`: for
every input whose written scheme, put in lower case, is neither of the two,
`Shorten` returns the empty code with a validation error and leaves the store as
it was.  Letter case in the written scheme makes no difference:
`HTTP://example.com` and `Https://example.com` are accepted. -/
theorem shorten_rejects_other_scheme (st : InMemoryStorage) (s scheme rest : GoString)
    (hs : getScheme (Cut (byte '#') s).1 = .ok (scheme, rest))
    (h1 : ToLower scheme ≠ str "http") (h2 : ToLower scheme ≠ str "https") :
    (Shorten st s).1.1 = [] ∧ (Shorten st s).1.2 ≠ none ∧ (Shorten st s).2 = st := by
  have hv : validateURL s ≠ none := by
    cases hp : Parse s with
    | error err => simp [validateURL, hp]
    | ok url =>
      have e := Parse_Scheme s scheme rest url hs hp
      have c1 : url.Scheme ≠ str "http" := by rw [e]; exact h1
      have c2 : url.Scheme ≠ str "https" := by rw [e]; exact h2
      simp [validateURL, hp, c1, c2]
  cases hv2 : validateURL s with
  | none => exact absurd hv2 hv
  | some e =>
    rw [Shorten_invalid st s e hv2]
    exact ⟨rfl, by simp, rfl⟩

set_option maxRecDepth 100000 in
/-- C5, witness: `FTP://example.com` is rejected on the empty store. -/
theorem shorten_rejects_other_scheme_witness :
    (Shorten NewInMemoryStorage (str "FTP://example.com")).1.1 = [] ∧
      (Shorten NewInMemoryStorage (str "FTP://example.com")).1.2 ≠ none ∧
      (Shorten NewInMemoryStorage (str "FTP://example.com")).2 = NewInMemoryStorage :=
  shorten_rejects_other_scheme NewInMemoryStorage (str "FTP://example.com")
    (str "FTP") (str "//example.com") (by rfl) (by decide!) (by decide!)

set_option maxRecDepth 100000 in
/-- C5, counterexample: the schemes of `HTTP://example.com` and
`Https://example.com` are written `HTTP` and `Https`, neither of them exactly
`http` or `https`, and `Shorten` returns a code without error for both. -/
theorem uppercase_scheme_accepted :
    getScheme (str "HTTP://example.com") = .ok (str "HTTP", str "//example.com") ∧
    str "HTTP" ≠ str "http" ∧ str "HTTP" ≠ str "https" ∧
    (Shorten NewInMemoryStorage (str "HTTP://example.com")).1 = (str "Tw7pHgJE", none) ∧
    getScheme (str "Https://example.com") = .ok (str "Https", str "//example.com") ∧
    str "Https" ≠ str "http" ∧ str "Https" ≠ str "https" ∧
    (Shorten NewInMemoryStorage (str "Https://example.com")).1.2 = none :=
  ⟨by rfl, by decide!, by decide!, by decide!, by rfl, by decide!, by decide!, by decide!⟩

/-! ## Deduplication and first-time shortening -/

/-- C6: in every store state whose URL->code index maps the valid URL `u` to a
code `c`, whatever `c` is, `Shorten u` returns `c` without error and leaves the
store unchanged: both indexes and every domain count are as before. -/
theorem shorten_known_url (s : InMemoryStorage) (u c : GoString)
    (hv : validateURL u = none) (hc : s.FindShortCode u = (c, true)) :
    (Shorten s u).1 = (c, none) ∧ (Shorten s u).2 = s ∧
      (Shorten s u).2.shortToLong = s.shortToLong ∧
      (Shorten s u).2.longToShort = s.longToShort ∧
      ∀ d, (Shorten s u).2.domainCounts.get? d = s.domainCounts.get? d := by
  have hc2 : s.longToShort.get? u = some c := by
    cases h : s.longToShort.get? u with
    | none => simp [InMemoryStorage.FindShortCode, h] at hc
    | some c0 =>
      simp [InMemoryStorage.FindShortCode, h] at hc
      rw [hc]
  rw [Shorten_known s u c hv hc2]
  exact ⟨rfl, rfl, rfl, rfl, fun _ => rfl⟩

set_option maxRecDepth 100000 in
/-- C6, witness: a store where `https://example.com` has the code `abc123`,
which is not the generated one. -/
theorem shorten_known_url_witness :
    generateShortCode (str "https://example.com") ≠ str "abc123" ∧
    (Shorten (NewInMemoryStorage.Save (str "abc123") (str "https://example.com"))
      (str "https://example.com")).1 = (str "abc123", none) :=
  ⟨by decide!,
    (shorten_known_url (NewInMemoryStorage.Save (str "abc123") (str "https://example.com"))
      (str "https://example.com") (str "abc123") (by decide!) (by decide!)).1⟩

theorem wrapInt_of_range (bits : Nat) (x : Int) (hb : 0 < bits)
    (hlo : MinInt bits ≤ x) (hhi : x ≤ MaxInt bits) : wrapInt bits x = x := by
  obtain ⟨k, rfl⟩ : ∃ k, bits = k + 1 := ⟨bits - 1, by omega⟩
  have hp : (0 : Int) < 2 ^ k := by positivity
  simp only [MinInt, MaxInt, Nat.add_sub_cancel] at hlo hhi
  simp only [wrapInt, MinInt, Nat.add_sub_cancel, pow_succ]
  rw [Int.emod_eq_of_lt (by omega) (by omega)]
  omega

/-- While the count of the domain is an `int` below the largest one, the
increment with Go's `int` is the increment without wrapping. -/
theorem IncrementDomainCountInt_eq (bits : Nat) (s : InMemoryStorage) (d : GoString)
    (hb : 0 < bits) (hlo : MinInt bits ≤ (s.domainCounts.get? d).getD 0)
    (hhi : (s.domainCounts.get? d).getD 0 < MaxInt bits) :
    s.IncrementDomainCountInt bits d = s.IncrementDomainCount d := by
  unfold InMemoryStorage.IncrementDomainCountInt InMemoryStorage.IncrementDomainCount
  rw [wrapInt_of_range bits _ hb (by omega) (by omega)]

/-- `ShortenInt` returns what `Shorten` returns and writes the same indexes, on
every store. -/
theorem ShortenInt_indexes (bits : Nat) (s : InMemoryStorage) (u : GoString) :
    (ShortenInt bits s u).1 = (Shorten s u).1 ∧
      (ShortenInt bits s u).2.shortToLong = (Shorten s u).2.shortToLong ∧
      (ShortenInt bits s u).2.longToShort = (Shorten s u).2.longToShort := by
  cases hv : validateURL u with
  | some e => simp [ShortenInt, Shorten, hv]
  | none =>
    cases hc : s.longToShort.get? u with
    | some c => simp [ShortenInt, Shorten, hv, InMemoryStorage.FindShortCode, hc]
    | none =>
      rcases hE : ExtractDomain u with ⟨d, _ | e⟩
      · by_cases hd : d = []
        · simp [ShortenInt, Shorten, hv, InMemoryStorage.FindShortCode, hc, hE, hd]
        · simp [ShortenInt, Shorten, hv, InMemoryStorage.FindShortCode, hc, hE, hd,
            InMemoryStorage.Save, InMemoryStorage.IncrementDomainCountInt,
            InMemoryStorage.IncrementDomainCount]
      · simp [ShortenInt, Shorten, hv, InMemoryStorage.FindShortCode, hc, hE]

/-- While the count of the extracted domain is an `int` below the largest one,
`ShortenInt` is `Shorten`. -/
theorem ShortenInt_eq_Shorten (bits : Nat) (s : InMemoryStorage) (u : GoString)
    (hb : 0 < bits)
    (hlo : MinInt bits ≤ (s.domainCounts.get? (ExtractDomain u).1).getD 0)
    (hhi : (s.domainCounts.get? (ExtractDomain u).1).getD 0 < MaxInt bits) :
    ShortenInt bits s u = Shorten s u := by
  have h := IncrementDomainCountInt_eq bits s (ExtractDomain u).1 hb hlo hhi
  rcases hE : ExtractDomain u with ⟨d, _ | e⟩
  · rw [hE] at h
    simp only [ShortenInt, Shorten, hE, h]
  · simp only [ShortenInt, Shorten, hE]

/-- C7, as amended: in every store state, for every valid URL `u` that is not a
key of the URL->code index and whose extracted domain `d` is not empty and has
a count below the largest `int` (`hlo` says that the stored count is an `int`
of `bits` bits), `Shorten u` returns `generateShortCode u` without error; afterwards `Find` of that code gives `(u, true)`,
`FindShortCode u` gives the code, the count of `d` is its former count plus one
(1 when `d` had no count) and every other domain has the count it had. -/
theorem shorten_first_time (bits : Nat) (s : InMemoryStorage) (u d : GoString)
    (hb : 0 < bits)
    (hv : validateURL u = none) (hnew : s.FindShortCode u = ([], false))
    (hd : ExtractDomain u = (d, none)) (hne : d ≠ [])
    (hlo : MinInt bits ≤ (s.domainCounts.get? d).getD 0)
    (hhi : (s.domainCounts.get? d).getD 0 < MaxInt bits) :
    (ShortenInt bits s u).1 = (generateShortCode u, none) ∧
      (ShortenInt bits s u).2.Find (generateShortCode u) = (u, true) ∧
      (ShortenInt bits s u).2.FindShortCode u = (generateShortCode u, true) ∧
      (ShortenInt bits s u).2.domainCounts.get? d
        = some ((s.domainCounts.get? d).getD 0 + 1) ∧
      (s.domainCounts.get? d = none →
        (ShortenInt bits s u).2.domainCounts.get? d = some 1) ∧
      (∀ d', d' ≠ d →
        (ShortenInt bits s u).2.domainCounts.get? d' = s.domainCounts.get? d') ∧
      ShortenInt bits s u = Shorten s u := by
  have heq : ShortenInt bits s u = Shorten s u :=
    ShortenInt_eq_Shorten bits s u hb (by rw [hd]; exact hlo) (by rw [hd]; exact hhi)
  have hc : s.longToShort.get? u = none := by
    cases h : s.longToShort.get? u with
    | none => rfl
    | some c0 => simp [InMemoryStorage.FindShortCode, h] at hnew
  have hcd : countsDomain u = true := by simp [countsDomain, hd, hne]
  rw [heq, Shorten_new_counted s u hv hc hcd, hd]
  refine ⟨rfl, ?_, ?_, ?_, ?_, ?_, rfl⟩
  · simp [InMemoryStorage.Find, InMemoryStorage.Save, GoMap.get?_set_self]
  · simp [InMemoryStorage.FindShortCode, InMemoryStorage.Save, GoMap.get?_set_self]
  · simp [InMemoryStorage.Save, InMemoryStorage.IncrementDomainCount, GoMap.get?_set_self]
  · intro h0
    simp [InMemoryStorage.Save, InMemoryStorage.IncrementDomainCount, GoMap.get?_set_self, h0]
  · intro d' hd'
    simp [InMemoryStorage.Save, InMemoryStorage.IncrementDomainCount,
      GoMap.get?_set_ne _ _ _ _ hd']

set_option maxRecDepth 100000 in
/-- C7, witness: with a 64-bit `int`, `https://example.com/test` on the empty
store counts `example.com` once. -/
theorem shorten_first_time_witness :
    (ShortenInt 64 NewInMemoryStorage (str "https://example.com/test")).2.domainCounts.get?
      (str "example.com") = some 1 :=
  (shorten_first_time 64 NewInMemoryStorage (str "https://example.com/test")
    (str "example.com") (by decide) (by decide!) (by rfl) (by decide!) (by decide!)
    (by decide!) (by decide!)).2.2.2.2.1 (by rfl)

set_option maxRecDepth 100000 in
/-- C7, counterexample: with a 64-bit `int`, on a store whose count of
`example.com` is the largest `int`, 9223372036854775807, the valid and new URL
`https://example.com/test` is shortened without error and the count of
`example.com` becomes the smallest `int`, -9223372036854775808, not the former
count plus one. -/
theorem shorten_first_time_counterexample :
    validateURL (str "https://example.com/test") = none ∧
    ExtractDomain (str "https://example.com/test") = (str "example.com", none) ∧
    (ShortenInt 64
      { NewInMemoryStorage with
        domainCounts := GoMap.empty.set (str "example.com") 9223372036854775807 }
      (str "https://example.com/test")).1 = (str "m4bHI5oT", none) ∧
    (ShortenInt 64
      { NewInMemoryStorage with
        domainCounts := GoMap.empty.set (str "example.com") 9223372036854775807 }
      (str "https://example.com/test")).2.domainCounts.get? (str "example.com")
      = some (-9223372036854775808) ∧
    (ShortenInt 64
      { NewInMemoryStorage with
        domainCounts := GoMap.empty.set (str "example.com") 9223372036854775807 }
      (str "https://example.com/test")).2.domainCounts.get? (str "example.com")
      ≠ some (9223372036854775807 + 1) :=
  ⟨by decide!, by decide!, by decide!, by decide!, by decide!⟩

/-! ## Domain accounting -/

theorem setEntries_of_lookup_none {V : Type} (k : GoString) (v : V)
    (l : List (GoString × V)) (h : lookupEntries k l = none) :
    setEntries k v l = l ++ [(k, v)] := by
  induction l with
  | nil => rfl
  | cons p rest ih =>
    obtain ⟨k', v'⟩ := p
    by_cases hk : k' = k
    · simp [lookupEntries, hk] at h
    · simp only [lookupEntries, if_neg hk] at h
      simp [setEntries, hk, ih h]

theorem sum_setEntries_succ (k : GoString) (l : List (GoString × Int)) :
    ((setEntries k ((lookupEntries k l).getD 0 + 1) l).map Prod.snd).sum
      = (l.map Prod.snd).sum + 1 := by
  induction l with
  | nil => simp [setEntries, lookupEntries]
  | cons p rest ih =>
    obtain ⟨k', v'⟩ := p
    by_cases hk : k' = k
    · simp [setEntries, lookupEntries, hk]
      omega
    · simp only [setEntries, lookupEntries, if_neg hk, List.map_cons, List.sum_cons, ih]
      omega

theorem totalCount_IncrementDomainCount (s : InMemoryStorage) (d : GoString) :
    totalCount (s.IncrementDomainCount d) = totalCount s + 1 :=
  sum_setEntries_succ d s.domainCounts.entries

/-- One `Shorten` call keeps the sum of the counts equal to the number of stored
URLs with a counted domain. -/
theorem counted_Shorten (s : InMemoryStorage) (u : GoString)
    (h : totalCount s = countedURLs s) :
    totalCount (Shorten s u).2 = countedURLs (Shorten s u).2 := by
  cases hv : validateURL u with
  | some e => rw [Shorten_invalid s u e hv]; exact h
  | none =>
    cases hc : s.longToShort.get? u with
    | some c => rw [Shorten_known s u c hv hc]; exact h
    | none =>
      have hset : setEntries u (generateShortCode u) s.longToShort.entries
          = s.longToShort.entries ++ [(u, generateShortCode u)] :=
        setEntries_of_lookup_none _ _ _ hc
      cases hd : countsDomain u with
      | true =>
        rw [Shorten_new_counted s u hv hc hd]
        have h1 : totalCount ((s.IncrementDomainCount (ExtractDomain u).1).Save
            (generateShortCode u) u) = totalCount s + 1 :=
          totalCount_IncrementDomainCount s _
        have h2 : countedURLs ((s.IncrementDomainCount (ExtractDomain u).1).Save
            (generateShortCode u) u) = countedURLs s + 1 := by
          simp [countedURLs, InMemoryStorage.Save, InMemoryStorage.IncrementDomainCount,
            GoMap.set, hset, List.filter_append, hd]
        rw [h1, h2, h]
        push_cast
        rfl
      | false =>
        rw [Shorten_new_uncounted s u hv hc hd]
        have h2 : countedURLs (s.Save (generateShortCode u) u) = countedURLs s := by
          simp [countedURLs, InMemoryStorage.Save, GoMap.set, hset, List.filter_append, hd]
        rw [h2, ← h]
        rfl

theorem counted_shortenAll (urls : List GoString) (s : InMemoryStorage)
    (h : totalCount s = countedURLs s) :
    totalCount (shortenAll s urls) = countedURLs (shortenAll s urls) := by
  induction urls generalizing s with
  | nil => exact h
  | cons u rest ih => exact ih _ (counted_Shorten s u h)

/-- C8, as amended: after any series of `Shorten` calls on the empty store, the
sum of all domain counts is the number of stored URLs whose extracted domain is
not empty; it is at most the number of entries of the URL->code index. -/
theorem domain_counts_sum (s : InMemoryStorage) (hr : Reachable s) :
    totalCount s = countedURLs s ∧ totalCount s ≤ s.longToShort.len := by
  obtain ⟨urls, rfl⟩ := hr
  have h := counted_shortenAll urls NewInMemoryStorage rfl
  refine ⟨h, ?_⟩
  rw [h]
  exact_mod_cast List.length_filter_le _ _

set_option maxRecDepth 100000 in
/-- C8, witness: after `https://example.com/test`, `http://:8080` and the first
URL again, the counts sum to 1 and two URLs are stored. -/
theorem domain_counts_sum_witness :
    (totalCount (shortenAll NewInMemoryStorage
        [str "https://example.com/test", str "http://:8080", str "https://example.com/test"])
      = countedURLs (shortenAll NewInMemoryStorage
        [str "https://example.com/test", str "http://:8080", str "https://example.com/test"]) ∧
    totalCount (shortenAll NewInMemoryStorage
        [str "https://example.com/test", str "http://:8080", str "https://example.com/test"])
      ≤ (shortenAll NewInMemoryStorage
        [str "https://example.com/test", str "http://:8080",
          str "https://example.com/test"]).longToShort.len) ∧
    countedURLs (shortenAll NewInMemoryStorage
        [str "https://example.com/test", str "http://:8080", str "https://example.com/test"])
      = 1 :=
  ⟨domain_counts_sum _ ⟨_, rfl⟩, by decide!⟩

set_option maxRecDepth 100000 in
/-- C8, counterexample: `http://:8080` is valid (its host is `:8080`) and its
host name is empty.  `Shorten` stores it on the empty store without error and
counts no domain: the counts sum to 0 and the URL->code index has 1 entry. -/
theorem domain_counts_sum_counterexample :
    Reachable (shortenAll NewInMemoryStorage [str "http://:8080"]) ∧
    (Shorten NewInMemoryStorage (str "http://:8080")).1 = (str "sI2PtkSt", none) ∧
    ExtractDomain (str "http://:8080") = ([], none) ∧
    totalCount (shortenAll NewInMemoryStorage [str "http://:8080"]) = 0 ∧
    (shortenAll NewInMemoryStorage [str "http://:8080"]).longToShort.len = 1 :=
  ⟨⟨_, rfl⟩, by decide!, by decide!, by decide!, by decide!⟩

/-! ## Ranking -/

theorem insertBack_perm {α : Type} (less : α → α → Bool) (x : α) (l : List α) :
    (insertBack less x l).Perm (x :: l) := by
  induction l with
  | nil => exact List.Perm.refl _
  | cons y rest ih =>
    by_cases h : less x y = true
    · simp only [insertBack, if_pos h]
      exact (List.Perm.cons y ih).trans (List.Perm.swap x y rest)
    · simp only [insertBack, if_neg h]
      exact List.Perm.refl _

theorem foldl_insertBack_perm {α : Type} (less : α → α → Bool) (data acc : List α) :
    (data.foldl (fun sorted x => insertBack less x sorted) acc).Perm (data ++ acc) := by
  induction data generalizing acc with
  | nil => exact List.Perm.refl _
  | cons x rest ih =>
    simp only [List.foldl_cons, List.cons_append]
    refine (ih _).trans ?_
    refine (List.Perm.append_left rest (insertBack_perm less x acc)).trans ?_
    exact List.perm_middle

theorem sortSlice_perm {α : Type} (less : α → α → Bool) (data : List α) :
    (sortSlice less data).Perm data := by
  unfold sortSlice
  refine (List.reverse_perm _).trans ?_
  simpa using foldl_insertBack_perm less data []

theorem insertBack_sorted {α : Type} (key : α → Int) (x : α) (l : List α)
    (h : l.Pairwise fun a b => key a ≤ key b) :
    (insertBack (fun a b => decide (key a > key b)) x l).Pairwise
      fun a b => key a ≤ key b := by
  induction l with
  | nil => simp [insertBack]
  | cons y rest ih =>
    rw [List.pairwise_cons] at h
    by_cases hxy : key x > key y
    · simp only [insertBack, hxy, decide_True, if_true]
      rw [List.pairwise_cons]
      refine ⟨?_, ih h.2⟩
      intro z hz
      rcases List.mem_cons.1 ((insertBack_perm _ x rest).subset hz) with hz | hz
      · rw [hz]; omega
      · exact h.1 z hz
    · simp only [insertBack, hxy, decide_False, Bool.false_eq_true, if_false]
      rw [List.pairwise_cons, List.pairwise_cons]
      refine ⟨?_, h.1, h.2⟩
      intro z hz
      rcases List.mem_cons.1 hz with hz | hz
      · rw [hz]; omega
      · have := h.1 z hz
        omega

theorem foldl_insertBack_sorted {α : Type} (key : α → Int) (data acc : List α)
    (h : acc.Pairwise fun a b => key a ≤ key b) :
    (data.foldl (fun sorted x => insertBack (fun a b => decide (key a > key b)) x sorted)
      acc).Pairwise fun a b => key a ≤ key b := by
  induction data generalizing acc with
  | nil => exact h
  | cons x rest ih => exact ih _ (insertBack_sorted key x acc h)

theorem sortSlice_sorted {α : Type} (key : α → Int) (data : List α) :
    (sortSlice (fun a b => decide (key a > key b)) data).Pairwise
      fun a b => key a ≥ key b := by
  unfold sortSlice
  rw [List.pairwise_reverse]
  exact foldl_insertBack_sorted key data [] List.Pairwise.nil

theorem GoMap.range_perm {V : Type} [DecidableEq V] (m : GoMap V)
    (visit : List (GoString × V)) : (m.range visit).Perm m.entries := by
  unfold GoMap.range
  split_ifs with h
  · exact h
  · exact List.Perm.refl _

theorem sortedDomains_perm (s : InMemoryStorage) (visit : List (GoString × Int)) :
    (sortedDomains s visit).Perm
      (s.domainCounts.entries.map fun e => DomainCount.mk e.1 e.2) :=
  (sortSlice_perm _ _).trans ((s.domainCounts.range_perm visit).map _)

theorem sortedDomains_sorted (s : InMemoryStorage) (visit : List (GoString × Int)) :
    (sortedDomains s visit).Pairwise fun a b => a.Count ≥ b.Count :=
  sortSlice_sorted DomainCount.Count _

theorem sortedDomains_length (s : InMemoryStorage) (visit : List (GoString × Int)) :
    (sortedDomains s visit).length = s.domainCounts.len := by
  rw [(sortedDomains_perm s visit).length_eq, List.length_map]
  rfl

theorem sortedDomains_nodup (s : InMemoryStorage) (visit : List (GoString × Int)) :
    ((sortedDomains s visit).map DomainCount.Domain).Nodup := by
  rw [((sortedDomains_perm s visit).map DomainCount.Domain).nodup_iff, List.map_map]
  exact s.domainCounts.nodup

theorem mem_sortedDomains_iff (s : InMemoryStorage) (visit : List (GoString × Int))
    (e : DomainCount) :
    e ∈ sortedDomains s visit ↔ s.domainCounts.get? e.Domain = some e.Count := by
  rw [(sortedDomains_perm s visit).mem_iff, GoMap.get?_eq_some_iff, List.mem_map]
  constructor
  · rintro ⟨⟨k, v⟩, h, rfl⟩
    exact h
  · intro h
    exact ⟨(e.Domain, e.Count), h, rfl⟩

theorem GetTopDomains_of_nonneg (s : InMemoryStorage) (visit : List (GoString × Int))
    (n : Int) (hn : 0 ≤ n) :
    s.GetTopDomains visit n = some ((sortedDomains s visit).take n.toNat) := by
  have hdef : s.GetTopDomains visit n =
      if ((sortedDomains s visit).length : Int) > n then
        if n < 0 then none else some ((sortedDomains s visit).take n.toNat)
      else some (sortedDomains s visit) := rfl
  rw [hdef]
  split_ifs with h1 h2
  · omega
  · rfl
  · rw [List.take_of_length_le]
    omega

theorem map_Count_unique (l1 l2 : List DomainCount) (hp : l1.Perm l2)
    (h1 : l1.Pairwise fun a b => a.Count ≥ b.Count)
    (h2 : l2.Pairwise fun a b => a.Count ≥ b.Count) :
    l1.map DomainCount.Count = l2.map DomainCount.Count :=
  List.eq_of_perm_of_sorted (r := fun a b : Int => a ≥ b) (hp.map _)
    (List.pairwise_map.2 h1) (List.pairwise_map.2 h2)

theorem eq_of_map_eq_of_inj {α β : Type} (f : α → β) (l1 l2 : List α)
    (h : l1.map f = l2.map f) (inj : ∀ x ∈ l1, ∀ y ∈ l2, f x = f y → x = y) : l1 = l2 := by
  induction l1 generalizing l2 with
  | nil =>
    cases l2 with
    | nil => rfl
    | cons b t => simp at h
  | cons a t ih =>
    cases l2 with
    | nil => simp at h
    | cons b t2 =>
      simp only [List.map_cons, List.cons.injEq] at h
      have hab : a = b := inj a (List.mem_cons_self _ _) b (List.mem_cons_self _ _) h.1
      have ht : t = t2 := ih t2 h.2 fun x hx y hy =>
        inj x (List.mem_cons_of_mem _ hx) y (List.mem_cons_of_mem _ hy)
      rw [hab, ht]

theorem GetTopDomains_def (s : InMemoryStorage) (visit : List (GoString × Int)) (n : Int) :
    s.GetTopDomains visit n =
      if ((sortedDomains s visit).length : Int) > n then
        if n < 0 then none else some ((sortedDomains s visit).take n.toNat)
      else some (sortedDomains s visit) := rfl

set_option maxRecDepth 100000 in
/-- C9: for every store state, every order in which the counters are visited
and every `n >= 0`, `GetTopDomains n` returns a sequence of length
`min n (number of counted domains)`; its entries are pairwise different
domains, each with its stored count; the counts do not increase along the
sequence; and every domain left out has a count at most every count in the
sequence.  After `example.com` is incremented 3 times, `test.com` twice and
`another.com` once, `GetTopDomains 2` is `[(example.com, 3), (test.com, 2)]`
and `GetTopDomains 10` has 3 entries. -/
theorem top_domains_ranking (s : InMemoryStorage) (visit : List (GoString × Int))
    (n : Int) (hn : 0 ≤ n) :
    (∃ r, s.GetTopDomains visit n = some r ∧
      r.length = min n.toNat s.domainCounts.len ∧
      (r.map DomainCount.Domain).Nodup ∧
      (∀ e ∈ r, s.domainCounts.get? e.Domain = some e.Count) ∧
      (r.Pairwise fun a b => a.Count ≥ b.Count) ∧
      (∀ d c, s.domainCounts.get? d = some c → d ∉ r.map DomainCount.Domain →
        ∀ e ∈ r, c ≤ e.Count)) ∧
    (∀ visit0 : List (GoString × Int),
      ((((((NewInMemoryStorage.IncrementDomainCount (str "example.com")).IncrementDomainCount
        (str "example.com")).IncrementDomainCount (str "example.com")).IncrementDomainCount
        (str "test.com")).IncrementDomainCount (str "test.com")).IncrementDomainCount
        (str "another.com")).GetTopDomains visit0 2
        = some [⟨str "example.com", 3⟩, ⟨str "test.com", 2⟩] ∧
      (((((((NewInMemoryStorage.IncrementDomainCount (str "example.com")).IncrementDomainCount
        (str "example.com")).IncrementDomainCount (str "example.com")).IncrementDomainCount
        (str "test.com")).IncrementDomainCount (str "test.com")).IncrementDomainCount
        (str "another.com")).GetTopDomains visit0 10).map List.length = some 3) := by
  constructor
  · refine ⟨_, GetTopDomains_of_nonneg s visit n hn, ?_, ?_, ?_, ?_, ?_⟩
    · rw [List.length_take, sortedDomains_length]
    · exact ((sortedDomains_nodup s visit).sublist
        ((List.take_sublist _ _).map DomainCount.Domain))
    · intro e he
      exact (mem_sortedDomains_iff s visit e).1 (List.mem_of_mem_take he)
    · exact (sortedDomains_sorted s visit).sublist (List.take_sublist _ _)
    · intro d c hd hout e he
      have hmem : (⟨d, c⟩ : DomainCount) ∈ sortedDomains s visit :=
        (mem_sortedDomains_iff s visit ⟨d, c⟩).2 hd
      rw [← List.take_append_drop n.toNat (sortedDomains s visit)] at hmem
      have hpw := sortedDomains_sorted s visit
      rw [← List.take_append_drop n.toNat (sortedDomains s visit),
        List.pairwise_append] at hpw
      rcases List.mem_append.1 hmem with h1 | h1
      · exact absurd (List.mem_map.2 ⟨_, h1, rfl⟩) hout
      · exact hpw.2.2 e he _ h1
  · intro visit0
    have hp := sortedDomains_perm ((((((NewInMemoryStorage.IncrementDomainCount
      (str "example.com")).IncrementDomainCount (str "example.com")).IncrementDomainCount
      (str "example.com")).IncrementDomainCount (str "test.com")).IncrementDomainCount
      (str "test.com")).IncrementDomainCount (str "another.com")) visit0
    have hs := sortedDomains_sorted ((((((NewInMemoryStorage.IncrementDomainCount
      (str "example.com")).IncrementDomainCount (str "example.com")).IncrementDomainCount
      (str "example.com")).IncrementDomainCount (str "test.com")).IncrementDomainCount
      (str "test.com")).IncrementDomainCount (str "another.com")) visit0
    have he : (((((((NewInMemoryStorage.IncrementDomainCount
      (str "example.com")).IncrementDomainCount (str "example.com")).IncrementDomainCount
      (str "example.com")).IncrementDomainCount (str "test.com")).IncrementDomainCount
      (str "test.com")).IncrementDomainCount (str "another.com")).domainCounts.entries.map
        fun e => DomainCount.mk e.1 e.2)
        = [⟨str "example.com", 3⟩, ⟨str "test.com", 2⟩, ⟨str "another.com", 1⟩] := by
      decide!
    rw [he] at hp
    have hL : ([⟨str "example.com", 3⟩, ⟨str "test.com", 2⟩, ⟨str "another.com", 1⟩] :
        List DomainCount).Pairwise fun a b => a.Count ≥ b.Count := by
      simp
    have hc := map_Count_unique _ _ hp hs hL
    have heq := eq_of_map_eq_of_inj DomainCount.Count _ _ hc (by
      intro x hx y hy hxy
      have hx2 := hp.subset hx
      simp only [List.mem_cons, List.mem_singleton, List.not_mem_nil, or_false] at hx2 hy
      rcases hx2 with rfl | rfl | rfl <;> rcases hy with rfl | rfl | rfl <;>
        first
        | rfl
        | (exfalso; revert hxy; decide))
    rw [GetTopDomains_def, GetTopDomains_def, heq]
    constructor
    · rfl
    · rfl

set_option maxRecDepth 100000 in
/-- C9, witness: the two largest counts of a store that counts `a.com` once and
`b.com` twice, visited in the order `b.com`, `a.com`. -/
theorem top_domains_ranking_witness :
    ∃ r, (((NewInMemoryStorage.IncrementDomainCount (str "a.com")).IncrementDomainCount
        (str "b.com")).IncrementDomainCount (str "b.com")).GetTopDomains
          [(str "b.com", 2), (str "a.com", 1)] 1 = some r ∧
      r.length = 1 ∧ ∀ e ∈ r, e.Count = 2 := by
  obtain ⟨r, h1, h2, -, h4, -, h6⟩ :=
    (top_domains_ranking
      (((NewInMemoryStorage.IncrementDomainCount (str "a.com")).IncrementDomainCount
        (str "b.com")).IncrementDomainCount (str "b.com"))
      [(str "b.com", 2), (str "a.com", 1)] 1 (by decide)).1
  refine ⟨r, h1, h2, ?_⟩
  intro e he
  have hb : (((NewInMemoryStorage.IncrementDomainCount (str "a.com")).IncrementDomainCount
      (str "b.com")).IncrementDomainCount (str "b.com")).domainCounts.get? (str "b.com")
      = some 2 := by decide!
  have hstored := h4 e he
  by_cases hd : str "b.com" ∈ r.map DomainCount.Domain
  · obtain ⟨x, hx, hxd⟩ := List.mem_map.1 hd
    have hlen : r.length = 1 := h2
    match r, hlen, he, hx with
    | [y], _, he, hx =>
      simp only [List.mem_singleton] at he hx
      subst he
      subst hx
      rw [hxd, hb] at hstored
      exact (Option.some.inj hstored).symm
  · have hle := h6 (str "b.com") 2 hb hd e he
    have ha : (((NewInMemoryStorage.IncrementDomainCount (str "a.com")).IncrementDomainCount
        (str "b.com")).IncrementDomainCount (str "b.com")).domainCounts.entries
        = [(str "a.com", 1), (str "b.com", 2)] := by decide!
    have hmem := (GoMap.get?_eq_some_iff _ _ _).1 hstored
    rw [ha] at hmem
    simp only [List.mem_cons, Prod.mk.injEq, List.mem_singleton, List.not_mem_nil,
      or_false] at hmem
    rcases hmem with ⟨_, hc⟩ | ⟨_, hc⟩
    · omega
    · exact hc

/-! ## Ties in the ranking -/

theorem GetTopDomains_of_neg (s : InMemoryStorage) (visit : List (GoString × Int))
    (n : Int) (hn : n < 0) : s.GetTopDomains visit n = none := by
  rw [GetTopDomains_def]
  split_ifs with h
  · rfl
  · omega

theorem sortedDomains_perm_of_same_counts (s1 s2 : InMemoryStorage)
    (visit1 visit2 : List (GoString × Int))
    (h : ∀ d, s1.domainCounts.get? d = s2.domainCounts.get? d) :
    (sortedDomains s1 visit1).Perm (sortedDomains s2 visit2) := by
  have hp0 : s1.domainCounts.entries.Perm s2.domainCounts.entries := by
    refine (List.perm_ext_iff_of_nodup (List.Nodup.of_map _ s1.domainCounts.nodup)
      (List.Nodup.of_map _ s2.domainCounts.nodup)).2 ?_
    rintro ⟨k, v⟩
    rw [← GoMap.get?_eq_some_iff, ← GoMap.get?_eq_some_iff, h k]
  exact (sortedDomains_perm s1 visit1).trans
    ((hp0.map _).trans (sortedDomains_perm s2 visit2).symm)

/-- C10, as amended: `GetTopDomains` orders by count only, with no second order
among domains of equal count.  For two stores holding the same domain counts,
whatever the orders in which their counters are visited, and the same `n`, the
two results have the same length and the same sequence of counts; they are the
same sequence when no two domains have the same count. -/
theorem top_domains_same_counts (s1 s2 : InMemoryStorage)
    (visit1 visit2 : List (GoString × Int)) (n : Int)
    (h : ∀ d, s1.domainCounts.get? d = s2.domainCounts.get? d) :
    (s1.GetTopDomains visit1 n).map List.length
        = (s2.GetTopDomains visit2 n).map List.length ∧
      (s1.GetTopDomains visit1 n).map (List.map DomainCount.Count)
        = (s2.GetTopDomains visit2 n).map (List.map DomainCount.Count) ∧
      ((∀ d d' c, s1.domainCounts.get? d = some c → s1.domainCounts.get? d' = some c →
          d = d') →
        s1.GetTopDomains visit1 n = s2.GetTopDomains visit2 n) := by
  have hp := sortedDomains_perm_of_same_counts s1 s2 visit1 visit2 h
  have hc := map_Count_unique _ _ hp (sortedDomains_sorted s1 visit1)
    (sortedDomains_sorted s2 visit2)
  have hcounts : (s1.GetTopDomains visit1 n).map (List.map DomainCount.Count)
      = (s2.GetTopDomains visit2 n).map (List.map DomainCount.Count) := by
    by_cases hn : n < 0
    · rw [GetTopDomains_of_neg s1 visit1 n hn, GetTopDomains_of_neg s2 visit2 n hn]
    · rw [GetTopDomains_of_nonneg s1 visit1 n (by omega),
        GetTopDomains_of_nonneg s2 visit2 n (by omega)]
      simp only [Option.map_some', List.map_take, hc]
  refine ⟨?_, hcounts, ?_⟩
  · have := congrArg (Option.map List.length) hcounts
    simpa [Option.map_map, Function.comp_def] using this
  · intro hdistinct
    have heq : sortedDomains s1 visit1 = sortedDomains s2 visit2 := by
      refine eq_of_map_eq_of_inj DomainCount.Count _ _ hc ?_
      intro x hx y hy hxy
      have hx2 := (mem_sortedDomains_iff s1 visit1 x).1 hx
      have hy2 := (mem_sortedDomains_iff s2 visit2 y).1 hy
      rw [← h, ← hxy] at hy2
      have hd := hdistinct _ _ _ hx2 hy2
      cases x
      cases y
      simp only at hd hxy
      rw [hd, hxy]
    rw [GetTopDomains_def, GetTopDomains_def, heq]

set_option maxRecDepth 100000 in
/-- C10, witness: a store that counts `a.com` then `b.com` and a store that
counts `b.com` then `a.com`, once each. -/
theorem top_domains_same_counts_witness :
    (((NewInMemoryStorage.IncrementDomainCount (str "a.com")).IncrementDomainCount
        (str "b.com")).GetTopDomains [] 1).map (List.map DomainCount.Count)
      = (((NewInMemoryStorage.IncrementDomainCount (str "b.com")).IncrementDomainCount
        (str "a.com")).GetTopDomains [] 1).map (List.map DomainCount.Count) :=
  (top_domains_same_counts
    ((NewInMemoryStorage.IncrementDomainCount (str "a.com")).IncrementDomainCount (str "b.com"))
    ((NewInMemoryStorage.IncrementDomainCount (str "b.com")).IncrementDomainCount (str "a.com"))
    [] [] 1
    (by
      intro d
      by_cases ha : d = str "a.com"
      · subst ha; decide!
      · by_cases hb : d = str "b.com"
        · subst hb; decide!
        · simp [InMemoryStorage.IncrementDomainCount, NewInMemoryStorage,
            GoMap.get?_set_ne _ _ _ _ ha, GoMap.get?_set_ne _ _ _ _ hb,
            GoMap.get?_empty])).2.1

set_option maxRecDepth 100000 in
/-- C10, counterexample: one store counts `a.com` once and `b.com` once.  Both
orders of visiting the two counters are arrangements of its entries; with
`n = 1` one gives `[(a.com, 1)]` and the other `[(b.com, 1)]`, and with `n = 2`
the two results list the domains in opposite orders. -/
theorem top_domains_tie_counterexample :
    ([(str "a.com", (1 : Int)), (str "b.com", 1)].Perm
      ((NewInMemoryStorage.IncrementDomainCount (str "a.com")).IncrementDomainCount
        (str "b.com")).domainCounts.entries) ∧
    ([(str "b.com", (1 : Int)), (str "a.com", 1)].Perm
      ((NewInMemoryStorage.IncrementDomainCount (str "a.com")).IncrementDomainCount
        (str "b.com")).domainCounts.entries) ∧
    ((NewInMemoryStorage.IncrementDomainCount (str "a.com")).IncrementDomainCount
        (str "b.com")).GetTopDomains [(str "a.com", 1), (str "b.com", 1)] 1
      = some [⟨str "a.com", 1⟩] ∧
    ((NewInMemoryStorage.IncrementDomainCount (str "a.com")).IncrementDomainCount
        (str "b.com")).GetTopDomains [(str "b.com", 1), (str "a.com", 1)] 1
      = some [⟨str "b.com", 1⟩] ∧
    ((NewInMemoryStorage.IncrementDomainCount (str "a.com")).IncrementDomainCount
        (str "b.com")).GetTopDomains [(str "a.com", 1), (str "b.com", 1)] 2
      ≠ ((NewInMemoryStorage.IncrementDomainCount (str "a.com")).IncrementDomainCount
        (str "b.com")).GetTopDomains [(str "b.com", 1), (str "a.com", 1)] 2 :=
  ⟨by decide!, by decide!, by decide!, by decide!, by decide!⟩

/-! ## `GetTopDomains` on every `n` -/

set_option maxRecDepth 100000 in
/-- C11: what `GetTopDomains` does on every integer `n`.  For `n >= 0` it
returns a sequence of at most `n` entries.  For every negative `n` the slice
expression `domains[:n]` panics, on the empty store with `n = -1` as on every
other store: no sequence is returned. -/
theorem top_domains_negative_panics :
    (∀ (s : InMemoryStorage) (visit : List (GoString × Int)) (n : Int), 0 ≤ n →
      ∃ r, s.GetTopDomains visit n = some r ∧ r.length ≤ n.toNat) ∧
    (∀ (s : InMemoryStorage) (visit : List (GoString × Int)) (n : Int), n < 0 →
      s.GetTopDomains visit n = none) ∧
    NewInMemoryStorage.GetTopDomains [] (-1) = none ∧
    (NewInMemoryStorage.IncrementDomainCount (str "example.com")).GetTopDomains [] (-1)
      = none := by
  refine ⟨?_, fun s visit n hn => GetTopDomains_of_neg s visit n hn, by decide!, by decide!⟩
  intro s visit n hn
  refine ⟨_, GetTopDomains_of_nonneg s visit n hn, ?_⟩
  rw [List.length_take]
  exact Nat.min_le_left _ _

/-! ## The store: lookups after writes -/

theorem Find_eq_none (s : InMemoryStorage) (c : GoString)
    (h : s.shortToLong.get? c = none) : s.Find c = ([], false) := by
  simp [InMemoryStorage.Find, h]

theorem FindShortCode_eq_none (s : InMemoryStorage) (u : GoString)
    (h : s.longToShort.get? u = none) : s.FindShortCode u = ([], false) := by
  simp [InMemoryStorage.FindShortCode, h]

/-- The indexes after one call: a call writes at most its own code and URL. -/
theorem applyOp_indexes (s : InMemoryStorage) (op : Op) :
    (∀ c, op.code ≠ some c → (applyOp s op).shortToLong.get? c = s.shortToLong.get? c) ∧
    (∀ u, op.url ≠ some u → (applyOp s op).longToShort.get? u = s.longToShort.get? u) := by
  cases op with
  | save c0 u0 =>
    constructor
    · intro c hc
      have hne : c ≠ c0 := fun e => hc (by rw [e]; rfl)
      exact GoMap.get?_set_ne _ _ _ _ hne
    · intro u hu
      have hne : u ≠ u0 := fun e => hu (by rw [e]; rfl)
      exact GoMap.get?_set_ne _ _ _ _ hne
  | increment d => exact ⟨fun _ _ => rfl, fun _ _ => rfl⟩
  | shorten u0 =>
    show (∀ c, _ → (Shorten s u0).2.shortToLong.get? c = _) ∧
      (∀ u, _ → (Shorten s u0).2.longToShort.get? u = _)
    cases hv : validateURL u0 with
    | some e =>
      rw [Shorten_invalid s u0 e hv]
      exact ⟨fun _ _ => rfl, fun _ _ => rfl⟩
    | none =>
      cases hk : s.longToShort.get? u0 with
      | some c0 =>
        rw [Shorten_known s u0 c0 hv hk]
        exact ⟨fun _ _ => rfl, fun _ _ => rfl⟩
      | none =>
        obtain ⟨_, h2, h3⟩ := Shorten_new_indexes s u0 hv hk
        rw [h2, h3]
        constructor
        · intro c hc
          have hne : c ≠ generateShortCode u0 := fun e => hc (by rw [e]; rfl)
          exact GoMap.get?_set_ne _ _ _ _ hne
        · intro u hu
          have hne : u ≠ u0 := fun e => hu (by rw [e]; rfl)
          exact GoMap.get?_set_ne _ _ _ _ hne

theorem runOps_indexes (ops : List Op) (s : InMemoryStorage) :
    (∀ c, (∀ op ∈ ops, op.code ≠ some c) →
      (runOps s ops).shortToLong.get? c = s.shortToLong.get? c) ∧
    (∀ u, (∀ op ∈ ops, op.url ≠ some u) →
      (runOps s ops).longToShort.get? u = s.longToShort.get? u) := by
  induction ops generalizing s with
  | nil => exact ⟨fun _ _ => rfl, fun _ _ => rfl⟩
  | cons op rest ih =>
    constructor
    · intro c hc
      show (runOps (applyOp s op) rest).shortToLong.get? c = _
      rw [(ih (applyOp s op)).1 c fun o ho => hc o (List.mem_cons_of_mem _ ho)]
      exact (applyOp_indexes s op).1 c (hc op (List.mem_cons_self _ _))
    · intro u hu
      show (runOps (applyOp s op) rest).longToShort.get? u = _
      rw [(ih (applyOp s op)).2 u fun o ho => hu o (List.mem_cons_of_mem _ ho)]
      exact (applyOp_indexes s op).2 u (hu op (List.mem_cons_self _ _))

set_option maxRecDepth 100000 in
/-- C12: in every store state, after `Save c u`, `Find c` is `(u, true)` and
`FindShortCode u` is `(c, true)`; `Find` of every other code and `FindShortCode`
of every other URL return what they returned before.  After any series of calls
on the empty store, a code that no call wrote and a URL that no call wrote are
reported with `found = false`; so is `nonexistent` by `Expand` on the empty
store and on the store that holds `abc123` only. -/
theorem save_then_find (s : InMemoryStorage) (c u : GoString) :
    (s.Save c u).Find c = (u, true) ∧
    (s.Save c u).FindShortCode u = (c, true) ∧
    (∀ c', c' ≠ c → (s.Save c u).Find c' = s.Find c') ∧
    (∀ u', u' ≠ u → (s.Save c u).FindShortCode u' = s.FindShortCode u') ∧
    (∀ (ops : List Op) (c' : GoString), (∀ op ∈ ops, op.code ≠ some c') →
      (runOps NewInMemoryStorage ops).Find c' = ([], false)) ∧
    (∀ (ops : List Op) (u' : GoString), (∀ op ∈ ops, op.url ≠ some u') →
      (runOps NewInMemoryStorage ops).FindShortCode u' = ([], false)) ∧
    Expand NewInMemoryStorage (str "nonexistent") = ([], false) ∧
    Expand (NewInMemoryStorage.Save (str "abc123") (str "https://example.com"))
      (str "nonexistent") = ([], false) ∧
    (NewInMemoryStorage.Save (str "abc123") (str "https://example.com")).FindShortCode
      (str "https://nonexistent.com") = ([], false) := by
  refine ⟨?_, ?_, ?_, ?_, ?_, ?_, by decide!, by decide!, by decide!⟩
  · simp [InMemoryStorage.Find, InMemoryStorage.Save, GoMap.get?_set_self]
  · simp [InMemoryStorage.FindShortCode, InMemoryStorage.Save, GoMap.get?_set_self]
  · intro c' hc
    simp [InMemoryStorage.Find, InMemoryStorage.Save, GoMap.get?_set_ne _ _ _ _ hc]
  · intro u' hu
    simp [InMemoryStorage.FindShortCode, InMemoryStorage.Save, GoMap.get?_set_ne _ _ _ _ hu]
  · intro ops c' h
    apply Find_eq_none
    rw [(runOps_indexes ops NewInMemoryStorage).1 c' h]
    rfl
  · intro ops u' h
    apply FindShortCode_eq_none
    rw [(runOps_indexes ops NewInMemoryStorage).2 u' h]
    rfl

theorem Find_eq_true_iff (s : InMemoryStorage) (c u : GoString) :
    s.Find c = (u, true) ↔ s.shortToLong.get? c = some u := by
  cases h : s.shortToLong.get? c <;> simp [InMemoryStorage.Find, h]

theorem FindShortCode_eq_true_iff (s : InMemoryStorage) (u c : GoString) :
    s.FindShortCode u = (c, true) ↔ s.longToShort.get? u = some c := by
  cases h : s.longToShort.get? u <;> simp [InMemoryStorage.FindShortCode, h]

/-! ## The two indexes against each other -/

theorem CodesStored_runOps (ops : List Op) (s : InMemoryStorage)
    (hops : ∀ op ∈ ops, op.isSave = false) (h : CodesStored s) :
    CodesStored (runOps s ops) := by
  induction ops generalizing s with
  | nil => exact h
  | cons op rest ih =>
    have hrest : ∀ o ∈ rest, o.isSave = false := fun o ho => hops o (List.mem_cons_of_mem _ ho)
    have hop := hops op (List.mem_cons_self _ _)
    cases op with
    | save c u => simp [Op.isSave] at hop
    | increment d => exact ih (s.IncrementDomainCount d) hrest h
    | shorten u => exact ih (Shorten s u).2 hrest (CodesStored_Shorten s u h)

/-- C13, as amended: in every store state reached from the empty store by a
series of `IncrementDomainCount` and `Shorten` calls, `Find c = (u, true)`
implies `FindShortCode u = (c, true)`, so no URL is stored under two codes; and
if no two stored URLs have the same generated code, `FindShortCode u = (c, true)`
implies `Find c = (u, true)` as well, so the two indexes are mutual inverses. -/
theorem indexes_after_shorten_calls (ops : List Op)
    (hops : ∀ op ∈ ops, op.isSave = false) :
    (∀ c u, (runOps NewInMemoryStorage ops).Find c = (u, true) →
      (runOps NewInMemoryStorage ops).FindShortCode u = (c, true)) ∧
    ((∀ u1 u2 c1 c2, (runOps NewInMemoryStorage ops).longToShort.get? u1 = some c1 →
        (runOps NewInMemoryStorage ops).longToShort.get? u2 = some c2 →
        generateShortCode u1 = generateShortCode u2 → u1 = u2) →
      ∀ c u, (runOps NewInMemoryStorage ops).FindShortCode u = (c, true) →
        (runOps NewInMemoryStorage ops).Find c = (u, true)) := by
  obtain ⟨inv1, inv2⟩ := CodesStored_runOps ops NewInMemoryStorage hops CodesStored_new
  constructor
  · intro c u h
    rw [Find_eq_true_iff] at h
    rw [FindShortCode_eq_true_iff]
    exact (inv2 c u h).2
  · intro hcol c u h
    rw [FindShortCode_eq_true_iff] at h
    rw [Find_eq_true_iff]
    obtain ⟨e1, _, u', e3⟩ := inv1 u c h
    obtain ⟨f1, f2⟩ := inv2 c u' e3
    have huu : u' = u := hcol u' u c c f2 h (by rw [f1, e1])
    rw [e3, huu]

set_option maxRecDepth 100000 in
/-- C13, witness: after `Shorten` of `https://example.com/test` and an
increment of `x.com`, the code `m4bHI5oT` leads to the URL and the URL to the
code. -/
theorem indexes_after_shorten_calls_witness :
    (∀ op ∈ [Op.shorten (str "https://example.com/test"), Op.increment (str "x.com")],
      op.isSave = false) ∧
    (runOps NewInMemoryStorage
      [Op.shorten (str "https://example.com/test"), Op.increment (str "x.com")]).FindShortCode
        (str "https://example.com/test") = (str "m4bHI5oT", true) :=
  ⟨by simp [Op.isSave],
    (indexes_after_shorten_calls
      [Op.shorten (str "https://example.com/test"), Op.increment (str "x.com")]
      (by simp [Op.isSave])).1 (str "m4bHI5oT") (str "https://example.com/test") (by decide!)⟩

set_option maxRecDepth 100000 in
/-- C13, counterexample: after `Save c1 u` and `Save c2 u` the code->URL index
holds `u` under both codes while the URL->code index maps `u` to `c2`:
`Find c1 = (u, true)` and `FindShortCode u = (c2, true)`.  After `Shorten` of
`http://a.io/8991006` and of `http://a.io/35086258`, which have the same code
`om6DuaQG`, `FindShortCode` of the first URL gives that code and `Find` of the
code gives the second URL. -/
theorem indexes_not_inverse_counterexample :
    (runOps NewInMemoryStorage
      [Op.save (str "c1") (str "https://example.com"),
        Op.save (str "c2") (str "https://example.com")]).Find (str "c1")
      = (str "https://example.com", true) ∧
    (runOps NewInMemoryStorage
      [Op.save (str "c1") (str "https://example.com"),
        Op.save (str "c2") (str "https://example.com")]).FindShortCode
        (str "https://example.com") = (str "c2", true) ∧
    (runOps NewInMemoryStorage
      [Op.shorten (str "http://a.io/8991006"),
        Op.shorten (str "http://a.io/35086258")]).FindShortCode (str "http://a.io/8991006")
      = (str "om6DuaQG", true) ∧
    (runOps NewInMemoryStorage
      [Op.shorten (str "http://a.io/8991006"),
        Op.shorten (str "http://a.io/35086258")]).Find (str "om6DuaQG")
      = (str "http://a.io/35086258", true) :=
  ⟨by decide!, by decide!, by decide!, by decide!⟩

/-! ## `IncrementDomainCount` -/

/-- C14, as amended: `IncrementDomainCount d` on a store whose count of `d` is
below the largest `int` (`hlo` says that the stored count is an `int` of `bits`
bits) raises the stored count of `d` by one, a missing entry
becoming 1, and leaves every other count and both URL indexes as they were;
after `k` calls on the empty store, `k` at most the largest `int`, the count of
`d` is `k`. -/
theorem increment_domain_count (bits : Nat) (s : InMemoryStorage) (d : GoString)
    (hb : 0 < bits) (hlo : MinInt bits ≤ (s.domainCounts.get? d).getD 0)
    (hhi : (s.domainCounts.get? d).getD 0 < MaxInt bits) :
    (s.IncrementDomainCountInt bits d).domainCounts.get? d
      = some ((s.domainCounts.get? d).getD 0 + 1) ∧
    (s.domainCounts.get? d = none →
      (s.IncrementDomainCountInt bits d).domainCounts.get? d = some 1) ∧
    (∀ d', d' ≠ d →
      (s.IncrementDomainCountInt bits d).domainCounts.get? d' = s.domainCounts.get? d') ∧
    (s.IncrementDomainCountInt bits d).shortToLong = s.shortToLong ∧
    (s.IncrementDomainCountInt bits d).longToShort = s.longToShort ∧
    (∀ k : Nat, (k : Int) ≤ MaxInt bits →
      (((fun t : InMemoryStorage => t.IncrementDomainCountInt bits d)^[k]
        NewInMemoryStorage).domainCounts.get? d).getD 0 = k) ∧
    (∀ k : Nat, 0 < k → (k : Int) ≤ MaxInt bits →
      ((fun t : InMemoryStorage => t.IncrementDomainCountInt bits d)^[k]
        NewInMemoryStorage).domainCounts.get? d = some (k : Int)) ∧
    s.IncrementDomainCountInt bits d = s.IncrementDomainCount d := by
  have hmin : MinInt bits ≤ 0 := by
    have hp : (0 : Int) < 2 ^ (bits - 1) := by positivity
    simp only [MinInt]
    omega
  have hself : ∀ t : InMemoryStorage, (t.IncrementDomainCount d).domainCounts.get? d
      = some ((t.domainCounts.get? d).getD 0 + 1) := fun t => GoMap.get?_set_self _ _ _
  have hk : ∀ k : Nat, (k : Int) ≤ MaxInt bits →
      (((fun t : InMemoryStorage => t.IncrementDomainCountInt bits d)^[k]
        NewInMemoryStorage).domainCounts.get? d).getD 0 = k := by
    intro k
    induction k with
    | zero => intro _; rfl
    | succ k ih =>
      intro hle
      have ih2 := ih (by push_cast at hle; omega)
      rw [Function.iterate_succ_apply',
        IncrementDomainCountInt_eq bits _ d hb (by rw [ih2]; omega)
          (by rw [ih2]; push_cast at hle; omega),
        hself, ih2]
      simp
  have heq := IncrementDomainCountInt_eq bits s d hb hlo hhi
  rw [heq]
  refine ⟨hself s, ?_, ?_, rfl, rfl, hk, ?_, rfl⟩
  · intro h0
    rw [hself s, h0]
    rfl
  · intro d' hd'
    exact GoMap.get?_set_ne _ _ _ _ hd'
  · intro k hpos hle
    obtain ⟨j, rfl⟩ : ∃ j, k = j + 1 := ⟨k - 1, by omega⟩
    have hj := hk j (by push_cast at hle; omega)
    rw [Function.iterate_succ_apply',
      IncrementDomainCountInt_eq bits _ d hb (by rw [hj]; omega)
        (by rw [hj]; push_cast at hle; omega),
      hself, hj]
    simp

set_option maxRecDepth 100000 in
/-- C14, witness: with a 64-bit `int`, three increments of `example.com` on the
empty store give the count 3. -/
theorem increment_domain_count_witness :
    ((NewInMemoryStorage.IncrementDomainCountInt 64 (str "example.com")).domainCounts.get?
      (str "example.com") = some 1) ∧
    (((fun t : InMemoryStorage => t.IncrementDomainCountInt 64 (str "example.com"))^[3]
      NewInMemoryStorage).domainCounts.get? (str "example.com")).getD 0 = (3 : Nat) :=
  ⟨(increment_domain_count 64 NewInMemoryStorage (str "example.com") (by decide)
      (by decide!) (by decide!)).1,
    (increment_domain_count 64 NewInMemoryStorage (str "example.com") (by decide)
      (by decide!) (by decide!)).2.2.2.2.2.1 3 (by decide!)⟩

set_option maxRecDepth 100000 in
/-- C14, counterexample: on a store whose count of `example.com` is the largest
`int`, `IncrementDomainCount` leaves the smallest `int`, not the former count
plus one: 9223372036854775807 becomes -9223372036854775808 with 64 bits and
2147483647 becomes -2147483648 with 32 bits. -/
theorem increment_domain_count_counterexample :
    (InMemoryStorage.IncrementDomainCountInt 64
      { NewInMemoryStorage with
        domainCounts := GoMap.empty.set (str "example.com") 9223372036854775807 }
      (str "example.com")).domainCounts.get? (str "example.com")
      = some (-9223372036854775808) ∧
    (InMemoryStorage.IncrementDomainCountInt 64
      { NewInMemoryStorage with
        domainCounts := GoMap.empty.set (str "example.com") 9223372036854775807 }
      (str "example.com")).domainCounts.get? (str "example.com")
      ≠ some (9223372036854775807 + 1) ∧
    (InMemoryStorage.IncrementDomainCountInt 32
      { NewInMemoryStorage with
        domainCounts := GoMap.empty.set (str "example.com") 2147483647 }
      (str "example.com")).domainCounts.get? (str "example.com")
      = some (-2147483648) :=
  ⟨by decide!, by decide!, by decide!⟩

/-! ## `ExtractDomain` on a text without scheme and host -/

set_option maxRecDepth 100000 in
/-- C15: `url.Parse` takes `not-a-url` for a relative reference with the path
`not-a-url`, so `ExtractDomain` returns the empty domain and no error. -/
theorem extract_domain_not_a_url :
    Parse (str "not-a-url") = .ok { Path := str "not-a-url" } ∧
    ExtractDomain (str "not-a-url") = ([], none) :=
  ⟨by rfl, by decide!⟩

/-! ## Rejected input -/

/-- C18: in every store state, for every input that fails validation, `Shorten`
returns the empty string and the validation error and leaves the store as it
was, also when the input is a key of the URL->code index. -/
theorem shorten_rejected_leaves_store (s : InMemoryStorage) (u : GoString)
    (h : validateURL u ≠ none) :
    (Shorten s u).1.1 = [] ∧ (Shorten s u).1.2 = validateURL u ∧
      (Shorten s u).1.2 ≠ none ∧ (Shorten s u).2 = s ∧
      (Shorten s u).2.shortToLong = s.shortToLong ∧
      (Shorten s u).2.longToShort = s.longToShort ∧
      (Shorten s u).2.domainCounts = s.domainCounts := by
  cases hv : validateURL u with
  | none => exact absurd hv h
  | some e =>
    rw [Shorten_invalid s u e hv]
    exact ⟨rfl, rfl, by simp, rfl, rfl, rfl, rfl⟩

set_option maxRecDepth 100000 in
/-- C18, witness: `ftp://example.com` is rejected on a store that holds it as a
key of the URL->code index. -/
theorem shorten_rejected_leaves_store_witness :
    (NewInMemoryStorage.Save (str "abc123") (str "ftp://example.com")).FindShortCode
      (str "ftp://example.com") = (str "abc123", true) ∧
    (Shorten (NewInMemoryStorage.Save (str "abc123") (str "ftp://example.com"))
      (str "ftp://example.com")).1.1 = [] ∧
    (Shorten (NewInMemoryStorage.Save (str "abc123") (str "ftp://example.com"))
      (str "ftp://example.com")).2
      = NewInMemoryStorage.Save (str "abc123") (str "ftp://example.com") :=
  ⟨by decide!,
    (shorten_rejected_leaves_store
      (NewInMemoryStorage.Save (str "abc123") (str "ftp://example.com"))
      (str "ftp://example.com") (by decide!)).1,
    (shorten_rejected_leaves_store
      (NewInMemoryStorage.Save (str "abc123") (str "ftp://example.com"))
      (str "ftp://example.com") (by decide!)).2.2.2.1⟩

/-! ## The shape of a short code -/

theorem byte_table (P : UInt8 → Bool) (h : ∀ n, n < 256 → P (UInt8.ofNat n) = true)
    (c : UInt8) : P c = true := by
  have h1 := h c.toNat c.toNat_lt_size
  have e : UInt8.ofNat c.toNat = c :=
    UInt8.toNat.inj (UInt8.toNat_ofNat_of_lt c.toNat_lt_size)
  rwa [e] at h1

theorem round256_length (st : List Nat) (kw : Nat × Nat) :
    (round256 st kw).length = st.length := by
  unfold round256
  split <;> rfl

theorem foldl_round256_length (l : List (Nat × Nat)) (st : List Nat) :
    (l.foldl round256 st).length = st.length := by
  induction l generalizing st with
  | nil => rfl
  | cons kw rest ih => rw [List.foldl_cons, ih, round256_length]

theorem block256_length (st block : List Nat) : (block256 st block).length = st.length := by
  simp [block256, foldl_round256_length]

theorem blocks256_length (n : Nat) (st ws : List Nat) :
    (blocks256 n st ws).length = st.length := by
  induction n generalizing st ws with
  | zero => rfl
  | succ n ih => rw [blocks256, ih, block256_length]

theorem Sum256_length (data : GoString) : (Sum256 data).length = 32 := by
  have h : ∀ l : List Nat, (l.flatMap fun w =>
      [(w >>> 24).toUInt8, ((w >>> 16) % 256).toUInt8, ((w >>> 8) % 256).toUInt8,
        (w % 256).toUInt8]).length = 4 * l.length := by
    intro l
    induction l with
    | nil => rfl
    | cons w rest ih =>
      rw [List.flatMap_cons, List.length_append, ih]
      simp only [List.length_cons, List.length_nil]
      omega
  unfold Sum256
  simp only [h, blocks256_length]
  rfl

theorem ReplaceAll_byte (s : GoString) (a b : UInt8) :
    ReplaceAll s [a] [b] = s.map fun c => if c = a then b else c := by
  unfold ReplaceAll
  induction s with
  | nil => rfl
  | cons c rest ih =>
    by_cases h : c = a
    · subst h
      simp [replaceFrom, List.isPrefixOf, ih]
    · have h2 : ¬ a = c := fun e => h e.symm
      simp [replaceFrom, List.isPrefixOf, ih, h, h2]

theorem EncodeToString_take8 (l : List UInt8) (h : 6 ≤ l.length) :
    ∃ v1 v2 v3 v4 v5 v6 v7 v8 rest, EncodeToString l =
      encodeChar v1 :: encodeChar v2 :: encodeChar v3 :: encodeChar v4 ::
        encodeChar v5 :: encodeChar v6 :: encodeChar v7 :: encodeChar v8 :: rest := by
  match l, h with
  | a1 :: a2 :: a3 :: a4 :: a5 :: a6 :: r, _ =>
    exact ⟨_, _, _, _, _, _, _, _, EncodeToString r, by simp only [EncodeToString]; rfl⟩

set_option maxRecDepth 100000 in
theorem encodeChar_substituted (v : Nat) :
    isAlnum ((fun c : UInt8 => if c = byte '-' then byte 'b' else c)
      ((fun c : UInt8 => if c = byte '_' then byte 'a' else c) (encodeChar v))) = true := by
  have table : ∀ i, i < 64 →
      isAlnum ((fun c : UInt8 => if c = byte '-' then byte 'b' else c)
        ((fun c : UInt8 => if c = byte '_' then byte 'a' else c) (encodeURL.getD i 0)))
        = true := by
    decide!
  exact table (v % 64) (Nat.mod_lt _ (by decide))

/-- A short code has 8 bytes, each a letter or a digit. -/
theorem generateShortCode_shape (url : GoString) :
    (generateShortCode url).length = 8 ∧ ∀ c ∈ generateShortCode url, isAlnum c = true := by
  obtain ⟨v1, v2, v3, v4, v5, v6, v7, v8, rest, he⟩ :=
    EncodeToString_take8 (Sum256 url) (by rw [Sum256_length]; decide)
  have h1 : str "_" = [byte '_'] := by decide
  have h2 : str "a" = [byte 'a'] := by decide
  have h3 : str "-" = [byte '-'] := by decide
  have h4 : str "b" = [byte 'b'] := by decide
  simp only [generateShortCode, he, h1, h2, h3, h4, ReplaceAll_byte, List.take_succ_cons,
    List.take_zero, List.map_cons, List.map_nil]
  refine ⟨rfl, ?_⟩
  intro c hc
  simp only [List.mem_cons, List.mem_singleton, List.not_mem_nil, or_false] at hc
  rcases hc with rfl | rfl | rfl | rfl | rfl | rfl | rfl | rfl <;>
    exact encodeChar_substituted _

set_option maxRecDepth 100000 in
/-- C19: for every input, also the empty one, `generateShortCode` returns 8
bytes, each a letter or a digit, so none of `_`, `-` and `=`; the encoded digest
has at least the 8 characters that the slice takes; and the two substitutions
give the same result in either order. -/
theorem short_code_shape (url : GoString) :
    (generateShortCode url).length = 8 ∧
    (∀ c ∈ generateShortCode url, isAlnum c = true) ∧
    byte '_' ∉ generateShortCode url ∧ byte '-' ∉ generateShortCode url ∧
    byte '=' ∉ generateShortCode url ∧
    (Sum256 url).length = 32 ∧
    8 ≤ (EncodeToString (Sum256 url)).length ∧
    generateShortCode url
      = ReplaceAll (ReplaceAll ((EncodeToString (Sum256 url)).take 8) (str "-") (str "b"))
          (str "_") (str "a") ∧
    generateShortCode (str "") = str "47DEQpj8" := by
  obtain ⟨hlen, hal⟩ := generateShortCode_shape url
  refine ⟨hlen, hal, ?_, ?_, ?_, Sum256_length url, ?_, ?_, by decide!⟩
  · intro h
    have := hal _ h
    revert this
    decide
  · intro h
    have := hal _ h
    revert this
    decide
  · intro h
    have := hal _ h
    revert this
    decide
  · obtain ⟨v1, v2, v3, v4, v5, v6, v7, v8, rest, he⟩ :=
      EncodeToString_take8 (Sum256 url) (by rw [Sum256_length]; decide)
    rw [he]
    simp only [List.length_cons]
    omega
  · have h1 : str "_" = [byte '_'] := by decide
    have h2 : str "a" = [byte 'a'] := by decide
    have h3 : str "-" = [byte '-'] := by decide
    have h4 : str "b" = [byte 'b'] := by decide
    simp only [generateShortCode, h1, h2, h3, h4, ReplaceAll_byte, List.map_map]
    apply List.map_congr_left
    intro c _
    simp only [Function.comp_apply]
    by_cases ha : c = byte '_'
    · subst ha
      decide
    · by_cases hb : c = byte '-'
      · subst hb
        decide
      · simp [ha, hb]

/-! ## The stored codes -/

set_option maxRecDepth 100000 in
/-- C20: in every store state reached from the empty store by `Shorten` calls,
every entry `u -> c` of the URL->code index has `c = generateShortCode u` and a
valid `u`; every entry `c -> u` of the code->URL index has
`generateShortCode u = c` and `u` as a key of the URL->code index; so `Expand`
of a string that is not 8 letters and digits, such as `nonexistent`, returns
`found = false`. -/
theorem stored_codes_invariant (s : InMemoryStorage) (hr : Reachable s) :
    (∀ u c, s.longToShort.get? u = some c →
      c = generateShortCode u ∧ validateURL u = none) ∧
    (∀ c u, s.shortToLong.get? c = some u →
      generateShortCode u = c ∧ ∃ c', s.longToShort.get? u = some c') ∧
    (∀ x : GoString, ¬ (x.length = 8 ∧ ∀ b ∈ x, isAlnum b = true) →
      Expand s x = ([], false)) ∧
    Expand s (str "nonexistent") = ([], false) := by
  obtain ⟨inv1, inv2⟩ := hr.codesStored
  have hshape : ∀ x : GoString, ¬ (x.length = 8 ∧ ∀ b ∈ x, isAlnum b = true) →
      Expand s x = ([], false) := by
    intro x hx
    apply Find_eq_none
    cases h : s.shortToLong.get? x with
    | none => rfl
    | some u =>
      exfalso
      apply hx
      rw [← (inv2 x u h).1]
      exact generateShortCode_shape u
  refine ⟨fun u c h => ⟨(inv1 u c h).1, (inv1 u c h).2.1⟩,
    fun c u h => ⟨(inv2 c u h).1, c, (inv2 c u h).2⟩, hshape, ?_⟩
  apply hshape
  intro h
  exact absurd h.1 (by decide)

set_option maxRecDepth 100000 in
/-- C20, witness: the store after `Shorten` of `https://example.com/test` and of
`http://:8080`. -/
theorem stored_codes_invariant_witness :
    (shortenAll NewInMemoryStorage
      [str "https://example.com/test", str "http://:8080"]).longToShort.get?
        (str "http://:8080") = some (str "sI2PtkSt") ∧
    Expand (shortenAll NewInMemoryStorage
      [str "https://example.com/test", str "http://:8080"]) (str "nonexistent")
      = ([], false) :=
  ⟨by decide!,
    (stored_codes_invariant
      (shortenAll NewInMemoryStorage [str "https://example.com/test", str "http://:8080"])
      ⟨_, rfl⟩).2.2.2⟩

/-! ## `ExtractDomain` on host, port and path -/

theorem Cut_of_not_mem (sep : UInt8) (l : GoString) (h : sep ∉ l) :
    Cut sep l = (l, [], false) := by
  induction l with
  | nil => rfl
  | cons c rest ih =>
    have hc : c ≠ sep := fun e => h (by rw [e]; exact List.mem_cons_self _ _)
    have hr : sep ∉ rest := fun e => h (List.mem_cons_of_mem _ e)
    simp [Cut, hc, ih hr]

theorem Cut_append (sep : UInt8) (a b : GoString) (h : sep ∉ a) :
    Cut sep (a ++ sep :: b) = (a, b, true) := by
  induction a with
  | nil => simp [Cut]
  | cons c rest ih =>
    have hc : c ≠ sep := fun e => h (by rw [e]; exact List.mem_cons_self _ _)
    have hr : sep ∉ rest := fun e => h (List.mem_cons_of_mem _ e)
    simp [Cut, hc, ih hr]

theorem LastIndex_of_not_mem (x : UInt8) (l : GoString) (h : x ∉ l) :
    LastIndex [x] l = none := by
  induction l with
  | nil => simp [LastIndex]
  | cons c rest ih =>
    have hc : ¬ x = c := fun e => h (by rw [e]; exact List.mem_cons_self _ _)
    have hr : x ∉ rest := fun e => h (List.mem_cons_of_mem _ e)
    simp [LastIndex, ih hr, List.isPrefixOf, hc]

theorem LastIndex_append (x : UInt8) (a b : GoString) (h : x ∉ b) :
    LastIndex [x] (a ++ x :: b) = some a.length := by
  induction a with
  | nil => simp [LastIndex, LastIndex_of_not_mem x b h, List.isPrefixOf]
  | cons c rest ih => simp [LastIndex, ih]

theorem unescape_host_ok (l : GoString)
    (h : ∀ c ∈ l, c ≠ byte '%' ∧ shouldEscapeHost c = false) :
    unescape .encodeHost l = .ok l := by
  induction l with
  | nil => rfl
  | cons c rest ih =>
    have hc := h c (List.mem_cons_self _ _)
    have hr := ih fun d hd => h d (List.mem_cons_of_mem _ hd)
    rcases rest with _ | ⟨h1, _ | ⟨l1, rest2⟩⟩
    all_goals rw [unescape]
    all_goals simp [hc.1, hc.2, hr]

theorem unescape_path_ok (l : GoString) (h : ∀ c ∈ l, c ≠ byte '%') :
    unescape .encodePath l = .ok l := by
  induction l with
  | nil => rfl
  | cons c rest ih =>
    have hc := h c (List.mem_cons_self _ _)
    have hr := ih fun d hd => h d (List.mem_cons_of_mem _ hd)
    rcases rest with _ | ⟨h1, _ | ⟨l1, rest2⟩⟩
    all_goals rw [unescape]
    all_goals simp [hc, hr]

set_option maxRecDepth 100000 in
theorem hostNameByte_facts (c : UInt8) (h : isHostNameByte c = true) :
    c ≠ byte '%' ∧ shouldEscapeHost c = false ∧ c ≠ byte ':' ∧ c ≠ byte '/' ∧
      c ≠ byte '?' ∧ c ≠ byte '#' ∧ c ≠ byte '@' ∧ c ≠ byte '[' ∧
      (c < byte ' ' || c = 127) = false := by
  have t := byte_table
    (fun c => !isHostNameByte c ||
      (decide (c ≠ byte '%') && !shouldEscapeHost c && decide (c ≠ byte ':') &&
        decide (c ≠ byte '/') && decide (c ≠ byte '?') && decide (c ≠ byte '#') &&
        decide (c ≠ byte '@') && decide (c ≠ byte '[') &&
        !(decide (c < byte ' ') || decide (c = 127))))
    (by decide!) c
  simp only [h, Bool.not_true, Bool.false_or, Bool.and_eq_true, decide_eq_true_eq,
    Bool.not_eq_true'] at t
  obtain ⟨⟨⟨⟨⟨⟨⟨⟨t1, t2⟩, t3⟩, t4⟩, t5⟩, t6⟩, t7⟩, t8⟩, t9⟩ := t
  exact ⟨t1, t2, t3, t4, t5, t6, t7, t8, t9⟩

set_option maxRecDepth 100000 in
theorem digit_isHostNameByte (c : UInt8) (h : isDigit c = true) : isHostNameByte c = true := by
  have t := byte_table (fun c => !isDigit c || isHostNameByte c) (by decide!) c
  simpa [h] using t

theorem getScheme_https (r : GoString) :
    getScheme (104 :: 116 :: 116 :: 112 :: 115 :: 58 :: r) = .ok (str "https", r) := by
  rfl

theorem getLast?_ne_of_not_mem (x : UInt8) (l : GoString) (h : x ∉ l) :
    l.getLast? ≠ some x := by
  intro e
  exact h (List.mem_of_getLast?_eq_some e)

theorem parse_https (auth pth : GoString)
    (hauth : ∀ c ∈ auth, c ≠ byte '/' ∧ c ≠ byte '?' ∧ (c < byte ' ' || c = 127) = false)
    (hpth : ∀ c ∈ pth, isPathByte c = true)
    (hslash : pth = [] ∨ ∃ q, pth = byte '/' :: q)
    (hA : parseAuthority auth = .ok auth) :
    parse (str "https://" ++ (auth ++ pth))
      = .ok { Scheme := str "https", Host := auth, Path := pth } := by
  have hP : str "https://" = [104, 116, 116, 112, 115, 58, 47, 47] := by decide
  have hpb : ∀ c ∈ pth, c ≠ byte '%' ∧ c ≠ byte '?' ∧ (c < byte ' ' || c = 127) = false := by
    intro c hc
    have := hpth c hc
    simp only [isPathByte, Bool.not_eq_true', Bool.or_eq_false_iff, decide_eq_false_iff_not]
      at this
    obtain ⟨⟨⟨⟨t1, t2⟩, t3⟩, t4⟩, _⟩ := this
    refine ⟨t3, t4, ?_⟩
    simp [t1, t2]
  have hq : byte '?' ∉ auth ++ pth := by
    intro hm
    rcases List.mem_append.1 hm with hm | hm
    · exact (hauth _ hm).2.1 rfl
    · exact (hpb _ hm).2.1 rfl
  have hq2 : byte '?' ∉ (47 : UInt8) :: 47 :: (auth ++ pth) := by
    intro hm
    rcases List.mem_cons.1 hm with hm | hm
    · revert hm; decide
    · rcases List.mem_cons.1 hm with hm | hm
      · revert hm; decide
      · exact hq hm
  have hctl : stringContainsCTLByte
      (104 :: 116 :: 116 :: 112 :: 115 :: 58 :: 47 :: 47 :: (auth ++ pth)) = false := by
    have h1 : stringContainsCTLByte (auth ++ pth) = false := by
      unfold stringContainsCTLByte
      rw [List.any_eq_false]
      intro c hc
      rcases List.mem_append.1 hc with hm | hm
      · simpa using (hauth _ hm).2.2
      · simpa using (hpb _ hm).2.2
    unfold stringContainsCTLByte at h1 ⊢
    simp only [List.any_cons, h1]
    decide
  have hstar : (104 :: 116 :: 116 :: 112 :: 115 :: 58 :: 47 :: 47 :: (auth ++ pth) : GoString)
      ≠ str "*" := by
    have : str "*" = [42] := by decide
    rw [this]
    simp
  have hcutq := Cut_of_not_mem (byte '?') _ hq2
  have hslashA : byte '/' ∉ auth := fun hm => (hauth _ hm).1 rfl
  have hcut : (Cut (byte '/') (auth ++ pth)).1 = auth := by
    rcases hslash with e | ⟨q, e⟩
    · rw [e, List.append_nil, Cut_of_not_mem _ _ hslashA]
    · rw [e, Cut_append _ _ _ hslashA]
  have hpath : unescape .encodePath pth = .ok pth :=
    unescape_path_ok pth fun c hc => (hpb c hc).1
  rw [hP]
  show parse (104 :: 116 :: 116 :: 112 :: 115 :: 58 :: 47 :: 47 :: (auth ++ pth)) = _
  unfold parse
  rw [if_neg (by rw [hctl]; decide), if_neg hstar, getScheme_https]
  have hs1 : str "/" = [47] := by decide
  have hs2 : str "//" = [47, 47] := by decide
  have hp1 : List.isPrefixOf (str "/") ((47 : UInt8) :: 47 :: (auth ++ pth)) = true := by
    rw [hs1]
    simp [List.isPrefixOf]
  have hp2 : List.isPrefixOf (str "//") ((47 : UInt8) :: 47 :: (auth ++ pth)) = true := by
    rw [hs2]
    simp [List.isPrefixOf]
  have hlow : ToLower (str "https") = str "https" := by decide
  have hne : str "https" ≠ [] := by decide
  simp only [hcutq, getLast?_ne_of_not_mem _ _ hq2, decide_False, Bool.false_and,
    Bool.false_eq_true, if_false, hp1, hp2, hlow, Bool.not_true, false_and, ne_eq, hne,
    not_false_eq_true, true_or, and_self, if_true, List.drop_succ_cons, List.drop_zero, hcut,
    List.drop_left, hA, hpath]

theorem Parse_https (auth pth : GoString)
    (hauth : ∀ c ∈ auth, c ≠ byte '/' ∧ c ≠ byte '?' ∧ (c < byte ' ' || c = 127) = false)
    (hhash : byte '#' ∉ auth)
    (hpth : ∀ c ∈ pth, isPathByte c = true)
    (hslash : pth = [] ∨ ∃ q, pth = byte '/' :: q)
    (hA : parseAuthority auth = .ok auth) :
    Parse (str "https://" ++ (auth ++ pth))
      = .ok { Scheme := str "https", Host := auth, Path := pth } := by
  have hP : str "https://" = [104, 116, 116, 112, 115, 58, 47, 47] := by decide
  have hno : byte '#' ∉ str "https://" ++ (auth ++ pth) := by
    intro hm
    rcases List.mem_append.1 hm with hm | hm
    · rw [hP] at hm
      revert hm
      decide
    · rcases List.mem_append.1 hm with hm | hm
      · exact hhash hm
      · have := hpth _ hm
        revert this
        decide
  unfold Parse
  simp only [Cut_of_not_mem _ _ hno, parse_https auth pth hauth hpth hslash hA, if_true]

theorem isPrefixOf_bracket (auth : GoString) (h : ∀ c ∈ auth, c ≠ byte '[') :
    List.isPrefixOf (str "[") auth = false := by
  have hs : str "[" = [byte '['] := by decide
  rw [hs]
  cases auth with
  | nil => rfl
  | cons c rest =>
    have hc : ¬ byte '[' = c := fun e => h c (List.mem_cons_self _ _) e.symm
    simp [List.isPrefixOf, hc]

/-- The host name alone as authority. -/
theorem host_authority (h : GoString) (hh : ∀ c ∈ h, isHostNameByte c = true) :
    parseAuthority h = .ok h ∧ splitHostPort h = h := by
  have hf := fun c hc => hostNameByte_facts c (hh c hc)
  have hat : LastIndex (str "@") h = none :=
    LastIndex_of_not_mem _ _ fun hm => (hf _ hm).2.2.2.2.2.2.1 rfl
  have hcol : LastIndex (str ":") h = none :=
    LastIndex_of_not_mem _ _ fun hm => (hf _ hm).2.2.1 rfl
  have hbr := isPrefixOf_bracket h fun c hc => (hf c hc).2.2.2.2.2.2.2.1
  have hun := unescape_host_ok h fun c hc => ⟨(hf c hc).1, (hf c hc).2.1⟩
  constructor
  · simp only [parseAuthority, hat, parseHost, hbr, hcol, hun, Bool.false_eq_true, if_false]
  · simp only [splitHostPort, hcol, hbr, Bool.false_eq_true, false_and, if_false]

/-- The host name and a port as authority. -/
theorem host_port_authority (h p : GoString) (hh : ∀ c ∈ h, isHostNameByte c = true)
    (hp : ∀ c ∈ p, isDigit c = true) :
    parseAuthority (h ++ byte ':' :: p) = .ok (h ++ byte ':' :: p) ∧
      splitHostPort (h ++ byte ':' :: p) = h := by
  have hf := fun c hc => hostNameByte_facts c (hh c hc)
  have hpf := fun c hc => hostNameByte_facts c (digit_isHostNameByte c (hp c hc))
  have hmem : ∀ c ∈ h ++ byte ':' :: p, c ≠ byte '@' ∧ c ≠ byte '[' ∧ c ≠ byte '%' ∧
      shouldEscapeHost c = false := by
    intro c hc
    rcases List.mem_append.1 hc with hm | hm
    · exact ⟨(hf c hm).2.2.2.2.2.2.1, (hf c hm).2.2.2.2.2.2.2.1, (hf c hm).1, (hf c hm).2.1⟩
    · rcases List.mem_cons.1 hm with hm | hm
      · subst hm
        decide
      · exact ⟨(hpf c hm).2.2.2.2.2.2.1, (hpf c hm).2.2.2.2.2.2.2.1, (hpf c hm).1,
          (hpf c hm).2.1⟩
  have hat : LastIndex (str "@") (h ++ byte ':' :: p) = none :=
    LastIndex_of_not_mem _ _ fun hm => (hmem _ hm).1 rfl
  have hcol : LastIndex (str ":") (h ++ byte ':' :: p) = some h.length :=
    LastIndex_append (byte ':') h p fun hm => (hpf _ hm).2.2.1 rfl
  have hbr := isPrefixOf_bracket (h ++ byte ':' :: p) fun c hc => (hmem c hc).2.1
  have hbr2 := isPrefixOf_bracket h fun c hc => (hf c hc).2.2.2.2.2.2.2.1
  have hun := unescape_host_ok (h ++ byte ':' :: p) fun c hc =>
    ⟨(hmem c hc).2.2.1, (hmem c hc).2.2.2⟩
  have hport : validOptionalPort (byte ':' :: p) = true := by
    simp only [validOptionalPort, decide_True, Bool.true_and, List.all_eq_true]
    intro c hc
    exact hp c hc
  constructor
  · simp only [parseAuthority, hat, parseHost, hbr, hcol, hun, Bool.false_eq_true, if_false,
      List.drop_left, hport, Bool.not_true]
  · simp only [splitHostPort, hcol, List.drop_left, hport, if_true, List.take_left, hbr2,
      Bool.false_eq_true, false_and, if_false]

theorem ExtractDomain_https (auth pth h : GoString)
    (hauth : ∀ c ∈ auth, c ≠ byte '/' ∧ c ≠ byte '?' ∧ (c < byte ' ' || c = 127) = false)
    (hhash : byte '#' ∉ auth)
    (hpth : ∀ c ∈ pth, isPathByte c = true)
    (hslash : pth = [] ∨ ∃ q, pth = byte '/' :: q)
    (hA : parseAuthority auth = .ok auth ∧ splitHostPort auth = h) :
    ExtractDomain (str "https://" ++ (auth ++ pth)) = (h, none) := by
  simp only [ExtractDomain, Parse_https auth pth hauth hhash hpth hslash hA.1, URL.Hostname,
    hA.2]

set_option maxRecDepth 100000 in
/-- C16, as amended: for every host name `h` written in letters, digits and the
marks of a registered name, every port `p` of decimal digits and every path `q`
without control bytes, `%`, `?` and `#`, `ExtractDomain` of `https://h`,
`https://h:p`, `https://h/q` and `https://h:p/q` returns `h` without error:
scheme, port and path are left out and subdomains are kept.
`https://example.com:8080` gives `example.com` and `https://sub.example.com`
gives `sub.example.com`.  Of a host in square brackets the brackets are left out
as well: `https://[::1]:8080` gives `::1`. -/
theorem extract_domain_host_name (h p q : GoString)
    (hh : ∀ c ∈ h, isHostNameByte c = true) (hp : ∀ c ∈ p, isDigit c = true)
    (hq : ∀ c ∈ q, isPathByte c = true) :
    ExtractDomain (str "https://" ++ h) = (h, none) ∧
    ExtractDomain (str "https://" ++ h ++ str ":" ++ p) = (h, none) ∧
    ExtractDomain (str "https://" ++ h ++ str "/" ++ q) = (h, none) ∧
    ExtractDomain (str "https://" ++ h ++ str ":" ++ p ++ str "/" ++ q) = (h, none) ∧
    ExtractDomain (str "https://example.com") = (str "example.com", none) ∧
    ExtractDomain (str "https://example.com/test/path") = (str "example.com", none) ∧
    ExtractDomain (str "https://sub.example.com") = (str "sub.example.com", none) ∧
    ExtractDomain (str "https://example.com:8080") = (str "example.com", none) ∧
    ExtractDomain (str "https://[::1]:8080") = (str "::1", none) := by
  have hc : str ":" = [byte ':'] := by decide
  have hs : str "/" = [byte '/'] := by decide
  have hf := fun c hc => hostNameByte_facts c (hh c hc)
  have hpf := fun c hc => hostNameByte_facts c (digit_isHostNameByte c (hp c hc))
  have hauth1 : ∀ c ∈ h, c ≠ byte '/' ∧ c ≠ byte '?' ∧ (c < byte ' ' || c = 127) = false :=
    fun c hc => ⟨(hf c hc).2.2.2.1, (hf c hc).2.2.2.2.1, (hf c hc).2.2.2.2.2.2.2.2⟩
  have hhash1 : byte '#' ∉ h := fun hm => (hf _ hm).2.2.2.2.2.1 rfl
  have hauth2 : ∀ c ∈ h ++ byte ':' :: p,
      c ≠ byte '/' ∧ c ≠ byte '?' ∧ (c < byte ' ' || c = 127) = false := by
    intro c hc
    rcases List.mem_append.1 hc with hm | hm
    · exact hauth1 c hm
    · rcases List.mem_cons.1 hm with hm | hm
      · subst hm
        decide
      · exact ⟨(hpf c hm).2.2.2.1, (hpf c hm).2.2.2.2.1, (hpf c hm).2.2.2.2.2.2.2.2⟩
  have hhash2 : byte '#' ∉ h ++ byte ':' :: p := by
    intro hm
    rcases List.mem_append.1 hm with hm | hm
    · exact hhash1 hm
    · rcases List.mem_cons.1 hm with hm | hm
      · revert hm
        decide
      · exact (hpf _ hm).2.2.2.2.2.1 rfl
  have hpath : ∀ c ∈ byte '/' :: q, isPathByte c = true := by
    intro c hc
    rcases List.mem_cons.1 hc with hm | hm
    · subst hm
      decide
    · exact hq c hm
  have hnil : ∀ c ∈ ([] : GoString), isPathByte c = true := fun c hc => by cases hc
  have r1 := ExtractDomain_https h [] h hauth1 hhash1 hnil (Or.inl rfl) (host_authority h hh)
  have r2 := ExtractDomain_https (h ++ byte ':' :: p) [] h hauth2 hhash2 hnil (Or.inl rfl)
    (host_port_authority h p hh hp)
  have r3 := ExtractDomain_https h (byte '/' :: q) h hauth1 hhash1 hpath (Or.inr ⟨q, rfl⟩)
    (host_authority h hh)
  have r4 := ExtractDomain_https (h ++ byte ':' :: p) (byte '/' :: q) h hauth2 hhash2 hpath
    (Or.inr ⟨q, rfl⟩) (host_port_authority h p hh hp)
  simp only [List.append_nil] at r1 r2
  refine ⟨r1, ?_, ?_, ?_, by decide!, by decide!, by decide!, by decide!, by decide!⟩
  · rw [hc]
    simpa only [List.append_assoc, List.singleton_append] using r2
  · rw [hs]
    simpa only [List.append_assoc, List.singleton_append] using r3
  · rw [hc, hs]
    simpa only [List.append_assoc, List.singleton_append, List.cons_append] using r4

set_option maxRecDepth 100000 in
/-- C16, witness: the host name `sub.example.com`, the port `8080` and the path
`test/path`. -/
theorem extract_domain_host_name_witness :
    ExtractDomain (str "https://" ++ str "sub.example.com" ++ str ":" ++ str "8080" ++ str "/"
      ++ str "test/path") = (str "sub.example.com", none) :=
  (extract_domain_host_name (str "sub.example.com") (str "8080") (str "test/path")
    (by decide!) (by decide!) (by decide!)).2.2.2.1

set_option maxRecDepth 100000 in
/-- C16, counterexample: `[::1]` is the host of `https://[::1]` as `url.Parse`
returns it, without port; `ExtractDomain` returns `::1`, which is not that
host. -/
theorem extract_domain_bracketed_host :
    (Parse (str "https://" ++ str "[::1]")).toOption.map (fun u => u.Host)
      = some (str "[::1]") ∧
    ExtractDomain (str "https://" ++ str "[::1]") = (str "::1", none) ∧
    ExtractDomain (str "https://" ++ str "[::1]") ≠ (str "[::1]", none) :=
  ⟨by decide!, by decide!, by decide!⟩

/-! ## Parallel callers: what every run keeps -/

end UrlShortener
